import Mathlib

/-!
# SHA-256 (`sha256.c`): a shallow embedding and its verified properties

The C program keeps a context `SHA256_CTX` (eight 32-bit state words, a 64-bit
byte counter, a 64-byte buffer) and exposes `sha256_init`, `sha256_update`,
`sha256_final`, and the one-shot `sha256`.

Modelling conventions:
* `uint32_t` / `uint64_t` / `uint8_t` values are natural numbers, and every
  operation that can overflow is reduced `% 2^32`, `% 2^64` or `% 256` at the
  place where the C type truncates;
* the fixed-size arrays `state[8]` and `buffer[64]` are total maps from their
  valid indices (`Fin 8 → Nat`, `Fin 64 → Nat`); an array store is a pointwise
  override;
* `for` loops with constant bounds are folds over the index range; the one
  `while` loop (padding in `sha256_final`) is a fuelled recursion together with
  a proof that the fuel supplied is always enough.
-/

namespace Sha256

/-! ## Constants and macros -/

/-- The macro `CHUNK_SIZE`: the block size in bytes. -/
def CHUNK_SIZE : Nat := 64

/-- The macro `TOTAL_LEN_LEN`: the size in bytes of the length field. -/
def TOTAL_LEN_LEN : Nat := 8

/-- The round-constant table `k[64]`. -/
def k : List Nat :=
  [0x428A2F98, 0x71374491, 0xB5C0FBCF, 0xE9B5DBA5, 0x3956C25B, 0x59F111F1, 0x923F82A4, 0xAB1C5ED5,
   0xD807AA98, 0x12835B01, 0x243185BE, 0x550C7DC3, 0x72BE5D74, 0x80DEB1FE, 0x9BDC06A7, 0xC19BF174,
   0xE49B69C1, 0xEFBE4786, 0x0FC19DC6, 0x240CA1CC, 0x2DE92C6F, 0x4A7484AA, 0x5CB0A9DC, 0x76F988DA,
   0x983E5152, 0xA831C66D, 0xB00327C8, 0xBF597FC7, 0xC6E00BF3, 0xD5A79147, 0x06CA6351, 0x14292967,
   0x27B70A85, 0x2E1B2138, 0x4D2C6DFC, 0x53380D13, 0x650A7354, 0x766A0ABB, 0x81C2C92E, 0x92722C85,
   0xA2BFE8A1, 0xA81A664B, 0xC24B8B70, 0xC76C51A3, 0xD192E819, 0xD6990624, 0xF40E3585, 0x106AA070,
   0x19A4C116, 0x1E376C08, 0x2748774C, 0x34B0BCB5, 0x391C0CB3, 0x4ED8AA4A, 0x5B9CCA4F, 0x682E6FF3,
   0x748F82EE, 0x78A5636F, 0x84C87814, 0x8CC70208, 0x90BEFFFA, 0xA4506CEB, 0xBEF9A3F7, 0xC67178F2]

/-- The macro `ROTRIGHT(a,b) = ((a) >> (b)) | ((a) << (32-(b)))` on `uint32_t`:
the left shift is truncated to 32 bits. -/
def ROTRIGHT (a b : Nat) : Nat := (a >>> b) ||| ((a <<< (32 - b)) % 2 ^ 32)

/-- The macro `CH(x,y,z) = ((x) & (y)) ^ (~(x) & (z))`; `~x` on `uint32_t` flips
the low 32 bits. -/
def CH (x y z : Nat) : Nat := (x &&& y) ^^^ ((x ^^^ 0xFFFFFFFF) &&& z)

/-- The macro `MAJ(x,y,z) = ((x) & (y)) ^ ((x) & (z)) ^ ((y) & (z))` -/
def MAJ (x y z : Nat) : Nat := (x &&& y) ^^^ (x &&& z) ^^^ (y &&& z)

/-- The macro `EP0(x) = ROTRIGHT(x,2) ^ ROTRIGHT(x,13) ^ ROTRIGHT(x,22)` -/
def EP0 (x : Nat) : Nat := ROTRIGHT x 2 ^^^ ROTRIGHT x 13 ^^^ ROTRIGHT x 22

/-- The macro `EP1(x) = ROTRIGHT(x,6) ^ ROTRIGHT(x,11) ^ ROTRIGHT(x,25)` -/
def EP1 (x : Nat) : Nat := ROTRIGHT x 6 ^^^ ROTRIGHT x 11 ^^^ ROTRIGHT x 25

/-- The macro `SIG0(x) = ROTRIGHT(x,7) ^ ROTRIGHT(x,18) ^ ((x) >> 3)` -/
def SIG0 (x : Nat) : Nat := ROTRIGHT x 7 ^^^ ROTRIGHT x 18 ^^^ (x >>> 3)

/-- The macro `SIG1(x) = ROTRIGHT(x,17) ^ ROTRIGHT(x,19) ^ ((x) >> 10)` -/
def SIG1 (x : Nat) : Nat := ROTRIGHT x 17 ^^^ ROTRIGHT x 19 ^^^ (x >>> 10)

/-! ## The context -/

/-- The struct `SHA256_CTX`. -/
structure SHA256_CTX where
  /-- The field `uint32_t state[8]`. -/
  state : Fin 8 → Nat
  /-- The field `uint64_t count`. -/
  count : Nat
  /-- The field `uint8_t buffer[CHUNK_SIZE]`. -/
  buffer : Fin 64 → Nat

/-- The array store `arr[i] = v`. -/
def store {n : Nat} (arr : Fin n → Nat) (i : Fin n) (v : Nat) : Fin n → Nat :=
  fun j => if j = i then v else arr j

/-- The buffer index `ctx->count % CHUNK_SIZE`. -/
def bufIdx (count : Nat) : Fin 64 := ⟨count % 64, Nat.mod_lt _ (by decide)⟩

/-! ## `sha256_transform` -/

/-- The first loop of `sha256_transform`, one iteration:
`m[i] = (chunk[j] << 24) | (chunk[j+1] << 16) | (chunk[j+2] << 8) | (chunk[j+3])`
with `j = 4*i`. The right-hand side is computed on promoted `int` operands and
stored into a `uint32_t`; the model takes its value modulo 2^32, which is the
bit pattern a two's-complement target stores. -/
def packWord (chunk : Fin 64 → Nat) (i : Fin 16) : Nat :=
  ((chunk ⟨4 * i.val, by omega⟩ <<< 24) ||| (chunk ⟨4 * i.val + 1, by omega⟩ <<< 16) |||
    (chunk ⟨4 * i.val + 2, by omega⟩ <<< 8) ||| chunk ⟨4 * i.val + 3, by omega⟩) % 2 ^ 32

/-- The second loop of `sha256_transform`, one iteration: with `m[0..i)` already
written (the list `m` has length `i`), append
`m[i] = SIG1(m[i-2]) + m[i-7] + SIG0(m[i-15]) + m[i-16]`. -/
def extendSchedule (m : List Nat) (i : Nat) : List Nat :=
  m ++ [(SIG1 (m.getD (i - 2) 0) + m.getD (i - 7) 0 + SIG0 (m.getD (i - 15) 0) +
          m.getD (i - 16) 0) % 2 ^ 32]

/-- The message schedule `m[64]` as built by the two loops. -/
def schedule (chunk : Fin 64 → Nat) : List Nat :=
  (List.range' 16 48).foldl extendSchedule (List.ofFn (packWord chunk))

/-- The working variables `a, b, c, d, e, f, g, h`. -/
structure Work where
  a : Nat
  b : Nat
  c : Nat
  d : Nat
  e : Nat
  f : Nat
  g : Nat
  h : Nat

/-- One iteration of the round loop of `sha256_transform`. -/
def round (m : List Nat) (w : Work) (i : Nat) : Work :=
  let t1 := (w.h + EP1 w.e + CH w.e w.f w.g + k.getD i 0 + m.getD i 0) % 2 ^ 32
  let t2 := (EP0 w.a + MAJ w.a w.b w.c) % 2 ^ 32
  { h := w.g, g := w.f, f := w.e, e := (w.d + t1) % 2 ^ 32,
    d := w.c, c := w.b, b := w.a, a := (t1 + t2) % 2 ^ 32 }

/-- The effect of `sha256_transform(ctx, chunk)` on `ctx->state`. -/
def transformState (state : Fin 8 → Nat) (chunk : Fin 64 → Nat) : Fin 8 → Nat :=
  let m := schedule chunk
  let w0 : Work :=
    { a := state 0, b := state 1, c := state 2, d := state 3,
      e := state 4, f := state 5, g := state 6, h := state 7 }
  let w := (List.range 64).foldl (round m) w0
  let s0 := store state 0 ((state 0 + w.a) % 2 ^ 32)
  let s1 := store s0 1 ((s0 1 + w.b) % 2 ^ 32)
  let s2 := store s1 2 ((s1 2 + w.c) % 2 ^ 32)
  let s3 := store s2 3 ((s2 3 + w.d) % 2 ^ 32)
  let s4 := store s3 4 ((s3 4 + w.e) % 2 ^ 32)
  let s5 := store s4 5 ((s4 5 + w.f) % 2 ^ 32)
  let s6 := store s5 6 ((s5 6 + w.g) % 2 ^ 32)
  store s6 7 ((s6 7 + w.h) % 2 ^ 32)

/-- The function `sha256_transform(ctx, chunk)`: only `ctx->state` changes. -/
def sha256_transform (ctx : SHA256_CTX) (chunk : Fin 64 → Nat) : SHA256_CTX :=
  { ctx with state := transformState ctx.state chunk }

/-! ## `sha256_init`, `sha256_update`, `sha256_final`, `sha256` -/

/-- The function `sha256_init(ctx)`: sets the eight state words and the counter; the buffer
is not written. -/
def sha256_init (ctx : SHA256_CTX) : SHA256_CTX :=
  let s0 := store ctx.state 0 0x6a09e667
  let s1 := store s0 1 0xbb67ae85
  let s2 := store s1 2 0x3c6ef372
  let s3 := store s2 3 0xa54ff53a
  let s4 := store s3 4 0x510e527f
  let s5 := store s4 5 0x9b05688c
  let s6 := store s5 6 0x1f83d9ab
  let s7 := store s6 7 0x5be0cd19
  { ctx with state := s7, count := 0 }

/-- The statement pair `ctx->buffer[ctx->count % CHUNK_SIZE] = v; ctx->count++;`
which `sha256_update` and `sha256_final` both use to append one byte. -/
def putByte (ctx : SHA256_CTX) (v : Nat) : SHA256_CTX :=
  { ctx with buffer := store ctx.buffer (bufIdx ctx.count) v,
             count := (ctx.count + 1) % 2 ^ 64 }

/-- The body of the loop of `sha256_update` for one input byte `data[i]`:
store it, count it, and compress when the counter reaches a multiple of 64. -/
def updateByte (ctx : SHA256_CTX) (byte : Nat) : SHA256_CTX :=
  let ctx1 := putByte ctx (byte % 256)
  if ctx1.count % CHUNK_SIZE = 0 then sha256_transform ctx1 ctx1.buffer else ctx1

/-- The function `sha256_update(ctx, data, len)` where `data` is the list of the `len` input
bytes. -/
def sha256_update (ctx : SHA256_CTX) (data : List Nat) : SHA256_CTX :=
  data.foldl updateByte ctx

/-- The `while` loop of `sha256_final`: while
`ctx->count % CHUNK_SIZE != CHUNK_SIZE - TOTAL_LEN_LEN`, store a zero byte and
increment the counter. The first argument bounds the number of iterations. -/
def padZeros : Nat → SHA256_CTX → SHA256_CTX
  | 0, ctx => ctx
  | fuel + 1, ctx =>
    if ctx.count % CHUNK_SIZE ≠ CHUNK_SIZE - TOTAL_LEN_LEN then padZeros fuel (putByte ctx 0x00)
    else ctx

/-- The byte stored by iteration `i` of the length loop of `sha256_final`:
`(total_len >> ((7 - i) * 8)) & 0xFF`. -/
def lenByte (total_len i : Nat) : Nat := (total_len >>> ((7 - i) * 8)) &&& 0xFF

/-- The context of `sha256_final` just before its call of `sha256_transform`:
the `0x80` byte, the zero bytes of the `while` loop, the eight length bytes. -/
def finalPadded (ctx : SHA256_CTX) : SHA256_CTX :=
  let total_len := (ctx.count * 8) % 2 ^ 64
  let ctx1 := putByte ctx 0x80
  let ctx2 := padZeros 64 ctx1
  (List.range TOTAL_LEN_LEN).foldl (fun c i => putByte c (lenByte total_len i)) ctx2

/-- The output loops of `sha256_final`: for `i < 8`, for `j < 4`,
`hash[i * 4 + j] = (ctx->state[i] >> (24 - j * 8)) & 0xFF`; the bytes are listed
in the order of their positions `i * 4 + j`. -/
def writeHash (state : Fin 8 → Nat) : List Nat :=
  (List.finRange 8).flatMap fun i =>
    (List.range 4).map fun j => (state i >>> (24 - j * 8)) &&& 0xFF

/-- The function `sha256_final(ctx, hash)`: the context it leaves behind and the 32 bytes it
writes to `hash`. -/
def sha256_final (ctx : SHA256_CTX) : SHA256_CTX × List Nat :=
  let ctx3 := finalPadded ctx
  let ctx4 := sha256_transform ctx3 ctx3.buffer
  (ctx4, writeHash ctx4.state)

/-- The function `sha256(data, len, hash)`: the bytes written to `hash`. The argument `ctx`
is the content of the uninitialised local variable `SHA256_CTX ctx`. -/
def sha256 (ctx : SHA256_CTX) (data : List Nat) : List Nat :=
  (sha256_final (sha256_update (sha256_init ctx) data)).2

/-- A context whose memory is all zero. -/
def zeroCtx : SHA256_CTX := { state := fun _ => 0, count := 0, buffer := fun _ => 0 }

/-! ## Reference SHA-256, written from the specification

These definitions follow the words of the specification (padding, block
splitting, compression, serialisation) and use arithmetic on naturals only;
they are what the code is compared with. -/

/-- Reference: 32-bit right rotation of a word `x < 2^32` by `n`. -/
def refRotr (x n : Nat) : Nat := x / 2 ^ n + (x % 2 ^ n) * 2 ^ (32 - n)

/-- Reference: `σ0(x) = rotr(x,7) ⊕ rotr(x,18) ⊕ (x ≫ 3)`. -/
def refSmallSigma0 (x : Nat) : Nat := refRotr x 7 ^^^ refRotr x 18 ^^^ (x / 2 ^ 3)

/-- Reference: `σ1(x) = rotr(x,17) ⊕ rotr(x,19) ⊕ (x ≫ 10)`. -/
def refSmallSigma1 (x : Nat) : Nat := refRotr x 17 ^^^ refRotr x 19 ^^^ (x / 2 ^ 10)

/-- Reference: `Σ0(x) = rotr(x,2) ⊕ rotr(x,13) ⊕ rotr(x,22)`. -/
def refBigSigma0 (x : Nat) : Nat := refRotr x 2 ^^^ refRotr x 13 ^^^ refRotr x 22

/-- Reference: `Σ1(x) = rotr(x,6) ⊕ rotr(x,11) ⊕ rotr(x,25)`. -/
def refBigSigma1 (x : Nat) : Nat := refRotr x 6 ^^^ refRotr x 11 ^^^ refRotr x 25

/-- Reference: `Ch(x,y,z) = (x ∧ y) ⊕ (¬x ∧ z)` on 32-bit words. -/
def refCh (x y z : Nat) : Nat := (x &&& y) ^^^ ((2 ^ 32 - 1 - x) &&& z)

/-- Reference: `Maj(x,y,z) = (x ∧ y) ⊕ (x ∧ z) ⊕ (y ∧ z)`. -/
def refMaj (x y z : Nat) : Nat := (x &&& y) ^^^ (x &&& z) ^^^ (y &&& z)

/-- Reference: the cube-root round constants, as published. -/
def refK : List Nat := k

/-- Reference: the next message-schedule word from the words so far. -/
def refNextWord (w : List Nat) : List Nat :=
  let i := w.length
  w ++ [(refSmallSigma1 (w.getD (i - 2) 0) + w.getD (i - 7) 0 +
          refSmallSigma0 (w.getD (i - 15) 0) + w.getD (i - 16) 0) % 2 ^ 32]

/-- Reference: the 64-word message schedule of a 64-byte block; the first 16
words are the block bytes taken big-endian four at a time. -/
def refSchedule (block : List Nat) : List Nat :=
  let w16 := (List.range 16).map fun i =>
    block.getD (4 * i) 0 * 2 ^ 24 + block.getD (4 * i + 1) 0 * 2 ^ 16 +
      block.getD (4 * i + 2) 0 * 2 ^ 8 + block.getD (4 * i + 3) 0
  (List.range 48).foldl (fun w _ => refNextWord w) w16

/-- Reference: one round on the working variables `[a,b,c,d,e,f,g,h]` with
round constant `kw` and schedule word `mw`. -/
def refRound (v : List Nat) (kw mw : Nat) : List Nat :=
  match v with
  | [a, b, c, d, e, f, g, h] =>
    let T1 := (h + refBigSigma1 e + refCh e f g + kw + mw) % 2 ^ 32
    let T2 := (refBigSigma0 a + refMaj a b c) % 2 ^ 32
    [(T1 + T2) % 2 ^ 32, a, b, c, (d + T1) % 2 ^ 32, e, f, g]
  | _ => v

/-- Reference: compression of one block into the eight-word state `H`. -/
def refCompress (H : List Nat) (block : List Nat) : List Nat :=
  let v := (List.zip refK (refSchedule block)).foldl (fun v p => refRound v p.1 p.2) H
  List.zipWith (fun x y => (x + y) % 2 ^ 32) H v

/-- Reference: the initial hash value. -/
def refH0 : List Nat :=
  [0x6a09e667, 0xbb67ae85, 0x3c6ef372, 0xa54ff53a, 0x510e527f, 0x9b05688c, 0x1f83d9ab, 0x5be0cd19]

/-- Reference: the eight bytes of `n` in big-endian order. -/
def refBE64 (n : Nat) : List Nat := (List.range 8).map fun i => n / 256 ^ (7 - i) % 256

/-- Reference: the padding appended to a message of `len` bytes: `0x80`, then
zero bytes until the length is 56 modulo 64, then the bit length on 8 bytes. -/
def refPadding (len : Nat) : List Nat :=
  [0x80] ++ List.replicate ((56 + 64 - (len + 1) % 64) % 64) 0 ++ refBE64 (8 * len)

/-- Reference: the consecutive 64-byte blocks of a byte string. -/
def refBlocks (l : List Nat) : List (List Nat) :=
  (List.range (l.length / 64)).map fun i => (l.drop (64 * i)).take 64

/-- Reference: a word as four big-endian bytes. -/
def refWordBytes (w : Nat) : List Nat := [w / 2 ^ 24 % 256, w / 2 ^ 16 % 256, w / 2 ^ 8 % 256, w % 256]

/-- Reference SHA-256 digest of the byte string `M`. -/
def refSha256 (M : List Nat) : List Nat :=
  ((refBlocks (M ++ refPadding M.length)).foldl refCompress refH0).flatMap refWordBytes

/-! ## Auxiliary definitions used in the statements and proofs -/

/-- Two contexts agree on state, counter and the last `n` buffer positions written. -/
def Trail (n : Nat) (c1 c2 : SHA256_CTX) : Prop :=
  c1.state = c2.state ∧ c1.count = c2.count ∧
    ∀ i : Fin 64, (c1.count + 63 - i.val) % 64 < n → c1.buffer i = c2.buffer i

/-- The invariant of the update loop for two runs on the same input: the
buffers agree at least on the pending positions `[0, count % 64)`. -/
def Agree (c1 c2 : SHA256_CTX) : Prop := ∃ n, c1.count % 64 ≤ n ∧ Trail n c1 c2

/-- The bytes that `sha256_final` appends to a context whose counter is `n`:
`0x80`, the zero bytes of the `while` loop, the eight length bytes. -/
def finalBytes (n : Nat) : List Nat :=
  0x80 :: (List.replicate ((119 - n % 64) % 64) 0 ++
    (List.range 8).map (lenByte ((n * 8) % 2 ^ 64)))

/-- The demo input of `main`: the bytes of the string "harry". -/
def harry : List Nat := [0x68, 0x61, 0x72, 0x72, 0x79]

/-- The padding string of a message of `n` bytes as the specification words it:
`0x80`, then `(55 - n) mod 64` zero bytes, then the big-endian 8-byte encoding
of `8 * n mod 2^64`. -/
def claimedPadding (n : Nat) : List Nat :=
  [0x80] ++ List.replicate ((55 + 64 - n % 64) % 64) 0 ++ refBE64 (8 * n % 2 ^ 64)

/-- The context after `sha256_init` and an update with 63 bytes `0x61`. -/
def ctxA63 : SHA256_CTX := sha256_update (sha256_init zeroCtx) (List.replicate 63 0x61)

/-- The square-root condition that defines the initial constants: `n` is the
integer part of `sqrt p * 2^32`, that is `n^2 ≤ p * 2^64 < (n+1)^2`. -/
def IsScaledSqrt (p n : Nat) : Prop := n ^ 2 ≤ p * 2 ^ 64 ∧ p * 2 ^ 64 < (n + 1) ^ 2

/-- A list of bytes seen as the 64-byte block that `sha256_transform` reads:
position `i` holds element `i` of the list, as a `uint8_t`. -/
def blockChunk (blk : List Nat) : Fin 64 → Nat := fun i => blk.getD i.val 0 % 256

/-- The compression of `sha256_transform` folded over a list of blocks, from
the state `s`. -/
def compressBlocks (s : Fin 8 → Nat) (blocks : List (List Nat)) : Fin 8 → Nat :=
  blocks.foldl (fun st blk => transformState st (blockChunk blk)) s

/-- The cube-root condition that defines the round constants: `n` is the
integer part of `cbrt p * 2^32`, that is `n^3 ≤ p * 2^96 < (n+1)^3`. -/
def IsScaledCbrt (p n : Nat) : Prop := n ^ 3 ≤ p * 2 ^ 96 ∧ p * 2 ^ 96 < (n + 1) ^ 3

/-- The first 64 primes, used to check the round constants one by one. -/
def primes64 : List Nat :=
  [2, 3, 5, 7, 11, 13, 17, 19, 23, 29, 31, 37, 41, 43, 47, 53,
   59, 61, 67, 71, 73, 79, 83, 89, 97, 101, 103, 107, 109, 113, 127, 131,
   137, 139, 149, 151, 157, 163, 167, 173, 179, 181, 191, 193, 197, 199, 211, 223,
   227, 229, 233, 239, 241, 251, 257, 263, 269, 271, 277, 281, 283, 293, 307, 311]

/-- Trial division by the numbers below 18, a primality test for `n < 324`. -/
def smallPrimeTest (n : Nat) : Bool :=
  decide (2 ≤ n) &&
    (List.range 18).all fun m => decide (m < 2) || decide (n ≤ m) || decide (n % m ≠ 0)

/-- The integer part of the cube root of a number below 343. -/
def cbrtFloor (p : Nat) : Nat :=
  if p < 8 then 1 else if p < 27 then 2 else if p < 64 then 3 else if p < 125 then 4
  else if p < 216 then 5 else 6

/-- The check run on entry `i` of the table `k`: entry `i` of `primes64` is a
prime below 324 with exactly `i` primes below it, `k[i]` fits in 32 bits, and
`cbrtFloor p * 2^32 + k[i]` satisfies the cube-root condition for `p`. -/
def roundConstantCheck (i : Nat) : Bool :=
  let p := primes64.getD i 0
  let n := cbrtFloor p * 2 ^ 32 + k.getD i 0
  decide (p < 324) && smallPrimeTest p &&
    decide (List.countP smallPrimeTest (List.range p) = i) &&
    decide (k.getD i 0 < 2 ^ 32) && decide (n ^ 3 ≤ p * 2 ^ 96) && decide (p * 2 ^ 96 < (n + 1) ^ 3)

/-- The working variables as the list `[a, b, c, d, e, f, g, h]`. -/
def Work.toList (w : Work) : List Nat := [w.a, w.b, w.c, w.d, w.e, w.f, w.g, w.h]

/-! # Lemmas and theorems -/

/-! ## Basic facts about stores and `putByte` -/

theorem store_same {n : Nat} (arr : Fin n → Nat) (i : Fin n) (v : Nat) : store arr i v i = v := by
  simp [store]

theorem store_other {n : Nat} (arr : Fin n → Nat) (i j : Fin n) (v : Nat) (h : j ≠ i) :
    store arr i v j = arr j := by
  simp [store, h]

theorem putByte_state (ctx : SHA256_CTX) (v : Nat) : (putByte ctx v).state = ctx.state := rfl

theorem putByte_count (ctx : SHA256_CTX) (v : Nat) :
    (putByte ctx v).count = (ctx.count + 1) % 2 ^ 64 := rfl

theorem putByte_count_mod (ctx : SHA256_CTX) (v : Nat) :
    (putByte ctx v).count % 64 = (ctx.count + 1) % 64 := by
  rw [putByte_count]; omega

/-- The state words written by `sha256_init` do not depend on the prior context. -/
theorem sha256_init_state (ctx : SHA256_CTX) (i : Fin 8) :
    (sha256_init ctx).state i = refH0.getD i.val 0 := by
  fin_cases i <;> rfl

theorem sha256_init_count (ctx : SHA256_CTX) : (sha256_init ctx).count = 0 := rfl

theorem sha256_init_buffer (ctx : SHA256_CTX) : (sha256_init ctx).buffer = ctx.buffer := rfl

/-! ## Agreement of two contexts on the most recently written bytes

`Trail n c1 c2` says that the state words and counters of `c1` and `c2` are
equal and that their buffers agree on the `n` positions written last (the
positions `count - 1, count - 2, ..., count - n` modulo 64). -/

theorem trail_mono {n m : Nat} {c1 c2 : SHA256_CTX} (h : Trail n c1 c2) (hm : m ≤ n) :
    Trail m c1 c2 :=
  ⟨h.1, h.2.1, fun i hi => h.2.2 i (lt_of_lt_of_le hi hm)⟩

theorem trail_refl (n : Nat) (c : SHA256_CTX) : Trail n c c :=
  ⟨rfl, rfl, fun _ _ => rfl⟩

theorem trail_full_eq {n : Nat} {c1 c2 : SHA256_CTX} (h : Trail n c1 c2) (hn : 64 ≤ n) :
    c1 = c2 := by
  obtain ⟨s1, n1, b1⟩ := c1
  obtain ⟨s2, n2, b2⟩ := c2
  obtain ⟨hs, hc, hb⟩ := h
  simp only at hs hc hb
  subst hs hc
  have : b1 = b2 := funext fun i => hb i (by omega)
  subst this
  rfl

theorem trail_putByte {n : Nat} {c1 c2 : SHA256_CTX} (h : Trail n c1 c2) (v : Nat) :
    Trail (n + 1) (putByte c1 v) (putByte c2 v) := by
  obtain ⟨hs, hc, hb⟩ := h
  refine ⟨hs, by simp [putByte_count, hc], ?_⟩
  intro i hi
  rw [putByte_count] at hi
  show store c1.buffer (bufIdx c1.count) v i = store c2.buffer (bufIdx c2.count) v i
  rw [← hc]
  by_cases hie : i = bufIdx c1.count
  · rw [hie, store_same, store_same]
  · rw [store_other _ _ _ _ hie, store_other _ _ _ _ hie]
    apply hb
    have hne : i.val ≠ c1.count % 64 := fun e => hie (Fin.ext e)
    have hi64 := i.isLt
    omega

theorem trail_putBytes {n : Nat} {c1 c2 : SHA256_CTX} (vs : List Nat) (h : Trail n c1 c2) :
    Trail (n + vs.length) (vs.foldl putByte c1) (vs.foldl putByte c2) := by
  induction vs generalizing n c1 c2 with
  | nil => simpa using h
  | cons v vs ih =>
    have := ih (trail_putByte h v)
    simpa [List.foldl_cons, Nat.add_assoc, Nat.add_comm 1] using this

theorem agree_init (c1 c2 : SHA256_CTX) : Agree (sha256_init c1) (sha256_init c2) := by
  refine ⟨0, by simp [sha256_init_count], ?_, ?_, ?_⟩
  · funext i; rw [sha256_init_state, sha256_init_state]
  · rfl
  · intro i hi; omega

theorem agree_updateByte {c1 c2 : SHA256_CTX} (h : Agree c1 c2) (b : Nat) :
    Agree (updateByte c1 b) (updateByte c2 b) := by
  obtain ⟨n, hn, ht⟩ := h
  have ht1 := trail_putByte ht (b % 256)
  have hc : (putByte c1 (b % 256)).count = (putByte c2 (b % 256)).count := ht1.2.1
  have hm := putByte_count_mod c1 (b % 256)
  unfold updateByte
  simp only [CHUNK_SIZE]
  rw [← hc]
  by_cases hz : (putByte c1 (b % 256)).count % 64 = 0
  · rw [if_pos hz, if_pos hz]
    have hfull : putByte c1 (b % 256) = putByte c2 (b % 256) := trail_full_eq ht1 (by omega)
    rw [hfull]
    exact ⟨_, le_refl _, trail_refl _ _⟩
  · rw [if_neg hz, if_neg hz]
    exact ⟨n + 1, by omega, ht1⟩

theorem agree_update {c1 c2 : SHA256_CTX} (data : List Nat) (h : Agree c1 c2) :
    Agree (sha256_update c1 data) (sha256_update c2 data) := by
  induction data generalizing c1 c2 with
  | nil => exact h
  | cons b bs ih => exact ih (agree_updateByte h b)

/-! ## The padding written by `sha256_final` -/

/-- The `while` loop of `sha256_final` stores exactly `(56 - count) mod 64` zero
bytes, and any fuel of at least that many iterations lets it run to its exit. -/
theorem padZeros_eq (fuel : Nat) (ctx : SHA256_CTX) (h : (120 - ctx.count % 64) % 64 ≤ fuel) :
    padZeros fuel ctx = (List.replicate ((120 - ctx.count % 64) % 64) 0).foldl putByte ctx := by
  induction fuel generalizing ctx with
  | zero =>
    have hz : (120 - ctx.count % 64) % 64 = 0 := by omega
    rw [hz]; rfl
  | succ fuel ih =>
    unfold padZeros
    simp only [CHUNK_SIZE, TOTAL_LEN_LEN]
    by_cases h56 : ctx.count % 64 = 56
    · have hz : (120 - ctx.count % 64) % 64 = 0 := by omega
      rw [hz]; simp [h56]
    · have hm := putByte_count_mod ctx 0
      have hz : (120 - ctx.count % 64) % 64 = (120 - (putByte ctx 0).count % 64) % 64 + 1 := by
        omega
      rw [if_pos (by simpa using h56), ih (putByte ctx 0) (by omega), hz, List.replicate_succ,
        List.foldl_cons]

theorem finalBytes_length (n : Nat) : (finalBytes n).length = 9 + (119 - n % 64) % 64 := by
  simp [finalBytes]; omega

/-- The context just before the compression in `sha256_final` is the input
context with the bytes `finalBytes` appended by `putByte`, nothing else. -/
theorem finalPadded_eq (ctx : SHA256_CTX) :
    finalPadded ctx = (finalBytes ctx.count).foldl putByte ctx := by
  have hm := putByte_count_mod ctx 0x80
  have hz : (120 - (putByte ctx 0x80).count % 64) % 64 = (119 - ctx.count % 64) % 64 := by omega
  unfold finalPadded finalBytes
  simp only [TOTAL_LEN_LEN]
  rw [padZeros_eq 64 _ (by omega), hz, List.foldl_cons, List.foldl_append, List.foldl_map]

theorem agree_finalPadded {c1 c2 : SHA256_CTX} (h : Agree c1 c2) :
    finalPadded c1 = finalPadded c2 := by
  obtain ⟨n, hn, ht⟩ := h
  have hc : c1.count = c2.count := ht.2.1
  rw [finalPadded_eq, finalPadded_eq, ← hc]
  refine trail_full_eq (trail_putBytes (finalBytes c1.count) ht) ?_
  rw [finalBytes_length]
  omega

theorem agree_final {c1 c2 : SHA256_CTX} (h : Agree c1 c2) : sha256_final c1 = sha256_final c2 := by
  unfold sha256_final
  rw [agree_finalPadded h]

/-- The one-shot digest does not depend on the content of the uninitialised
local context. -/
theorem sha256_any_ctx (c1 c2 : SHA256_CTX) (data : List Nat) : sha256 c1 data = sha256 c2 data := by
  unfold sha256
  rw [agree_final (agree_update data (agree_init c1 c2))]

/-! ## Evaluations on the all-zero context

The one-shot digest is the same from every prior content of the local context
(`sha256_any_ctx`), so it can be computed on `zeroCtx`. -/

set_option maxRecDepth 100000 in
theorem sha256_zeroCtx_empty :
    sha256 zeroCtx [] =
      [0xe3, 0xb0, 0xc4, 0x42, 0x98, 0xfc, 0x1c, 0x14, 0x9a, 0xfb, 0xf4, 0xc8, 0x99, 0x6f, 0xb9, 0x24,
       0x27, 0xae, 0x41, 0xe4, 0x64, 0x9b, 0x93, 0x4c, 0xa4, 0x95, 0x99, 0x1b, 0x78, 0x52, 0xb8, 0x55] := by
  decide

set_option maxRecDepth 100000 in
theorem sha256_zeroCtx_abc :
    sha256 zeroCtx [0x61, 0x62, 0x63] =
      [0xba, 0x78, 0x16, 0xbf, 0x8f, 0x01, 0xcf, 0xea, 0x41, 0x41, 0x40, 0xde, 0x5d, 0xae, 0x22, 0x23,
       0xb0, 0x03, 0x61, 0xa3, 0x96, 0x17, 0x7a, 0x9c, 0xb4, 0x10, 0xff, 0x61, 0xf2, 0x00, 0x15, 0xad] := by
  decide

set_option maxRecDepth 100000 in
theorem sha256_zeroCtx_zeros56 :
    sha256 zeroCtx (List.replicate 56 0) =
      [0xe6, 0xad, 0xb3, 0xeb, 0x2c, 0xa8, 0x53, 0x6c, 0x0a, 0xc3, 0x3f, 0x32, 0x18, 0xc6, 0x69, 0x76,
       0x54, 0x1f, 0x8f, 0x09, 0x8a, 0xde, 0x15, 0x63, 0x42, 0x82, 0xfc, 0x17, 0x4a, 0x3d, 0xe2, 0xe6] := by
  decide

set_option maxRecDepth 100000 in
theorem refSha256_zeros56 :
    refSha256 (List.replicate 56 0) =
      [0xd4, 0x81, 0x7a, 0xa5, 0x49, 0x76, 0x28, 0xe7, 0xc7, 0x7e, 0x6b, 0x60, 0x61, 0x07, 0x04, 0x2b,
       0xbb, 0xa3, 0x13, 0x08, 0x88, 0xc5, 0xf4, 0x7a, 0x37, 0x5e, 0x61, 0x79, 0xbe, 0x78, 0x9f, 0xbb] := by
  decide

set_option maxRecDepth 100000 in
/-- On the demo input "harry" the program and the reference agree. -/
theorem sha256_harry :
    sha256 zeroCtx harry = refSha256 harry ∧
    sha256 zeroCtx harry =
      [0xdf, 0x46, 0x21, 0x95, 0x31, 0xcb, 0x5d, 0x52, 0x2d, 0x08, 0x45, 0x90, 0x19, 0x78, 0xdc, 0xcf,
       0xa2, 0x86, 0xa5, 0xb0, 0x43, 0x7f, 0x4f, 0x9c, 0xd4, 0xe4, 0x85, 0x06, 0x4f, 0x6b, 0x63, 0x2c] := by
  decide

/-! ## The claims -/

/-- C1 (fails on the code): `sha256` is claimed to return the reference SHA-256
digest of every message shorter than 2^61 bytes. On the message of 56 zero
bytes, whatever the prior content of the local context, `sha256` returns
`e6adb3eb...3de2e6` while the reference digest is `d4817aa5...789fbb`; the two
differ. -/
theorem C1_sha256_differs_from_reference_on_56_zero_bytes (ctx : SHA256_CTX) :
    sha256 ctx (List.replicate 56 0) =
      [0xe6, 0xad, 0xb3, 0xeb, 0x2c, 0xa8, 0x53, 0x6c, 0x0a, 0xc3, 0x3f, 0x32, 0x18, 0xc6, 0x69, 0x76,
       0x54, 0x1f, 0x8f, 0x09, 0x8a, 0xde, 0x15, 0x63, 0x42, 0x82, 0xfc, 0x17, 0x4a, 0x3d, 0xe2, 0xe6] ∧
    refSha256 (List.replicate 56 0) =
      [0xd4, 0x81, 0x7a, 0xa5, 0x49, 0x76, 0x28, 0xe7, 0xc7, 0x7e, 0x6b, 0x60, 0x61, 0x07, 0x04, 0x2b,
       0xbb, 0xa3, 0x13, 0x08, 0x88, 0xc5, 0xf4, 0x7a, 0x37, 0x5e, 0x61, 0x79, 0xbe, 0x78, 0x9f, 0xbb] ∧
    sha256 ctx (List.replicate 56 0) ≠ refSha256 (List.replicate 56 0) := by
  have hcode := (sha256_any_ctx ctx zeroCtx (List.replicate 56 0)).trans sha256_zeroCtx_zeros56
  refine ⟨hcode, refSha256_zeros56, ?_⟩
  rw [hcode, refSha256_zeros56]
  decide

/-- Feeding the chunks of a list one after the other is one update over their
concatenation. -/
theorem update_chunks (ctx : SHA256_CTX) (chunks : List (List Nat)) :
    chunks.foldl sha256_update ctx = sha256_update ctx chunks.flatten := by
  unfold sha256_update
  rw [List.foldl_flatten]

/-- C2: chunking invariance. For every prior context, every message given as a
list of chunks (empty chunks and a single chunk included), the one-shot digest
of the concatenation equals the digest written by `sha256_final` after
`sha256_init` and one `sha256_update` per chunk, in order; and for every
context `ctx` and byte strings `A`, `B`, updating with `A` and then with `B`
gives the same context (state, count and buffer) as updating with `A ++ B`. -/
theorem C2_chunking_invariance :
    (∀ (ctx : SHA256_CTX) (chunks : List (List Nat)),
      sha256 ctx chunks.flatten = (sha256_final (chunks.foldl sha256_update (sha256_init ctx))).2) ∧
    (∀ (ctx : SHA256_CTX) (A B : List Nat),
      sha256_update (sha256_update ctx A) B = sha256_update ctx (A ++ B)) := by
  constructor
  · intro ctx chunks
    rw [update_chunks]
    rfl
  · intro ctx A B
    unfold sha256_update
    rw [List.foldl_append]

/-- C3: the empty message. For every prior context, `sha256` of the empty byte
string, and equally `sha256_init` followed directly by `sha256_final`, writes
the 32 bytes `e3b0c442 98fc1c14 9afbf4c8 996fb924 27ae41e4 649b934c a495991b
7852b855`. -/
theorem C3_empty_message_digest (ctx : SHA256_CTX) :
    sha256 ctx [] =
      [0xe3, 0xb0, 0xc4, 0x42, 0x98, 0xfc, 0x1c, 0x14, 0x9a, 0xfb, 0xf4, 0xc8, 0x99, 0x6f, 0xb9, 0x24,
       0x27, 0xae, 0x41, 0xe4, 0x64, 0x9b, 0x93, 0x4c, 0xa4, 0x95, 0x99, 0x1b, 0x78, 0x52, 0xb8, 0x55] ∧
    (sha256_final (sha256_init ctx)).2 =
      [0xe3, 0xb0, 0xc4, 0x42, 0x98, 0xfc, 0x1c, 0x14, 0x9a, 0xfb, 0xf4, 0xc8, 0x99, 0x6f, 0xb9, 0x24,
       0x27, 0xae, 0x41, 0xe4, 0x64, 0x9b, 0x93, 0x4c, 0xa4, 0x95, 0x99, 0x1b, 0x78, 0x52, 0xb8, 0x55] := by
  have h := (sha256_any_ctx ctx zeroCtx []).trans sha256_zeroCtx_empty
  exact ⟨h, h⟩

/-- C4: the message "abc". For every prior context, `sha256` of the three bytes
`0x61 0x62 0x63` writes the 32 bytes `ba7816bf 8f01cfea 414140de 5dae2223
b00361a3 96177a9c b410ff61 f20015ad`. -/
theorem C4_abc_digest (ctx : SHA256_CTX) :
    sha256 ctx [0x61, 0x62, 0x63] =
      [0xba, 0x78, 0x16, 0xbf, 0x8f, 0x01, 0xcf, 0xea, 0x41, 0x41, 0x40, 0xde, 0x5d, 0xae, 0x22, 0x23,
       0xb0, 0x03, 0x61, 0xa3, 0x96, 0x17, 0x7a, 0x9c, 0xb4, 0x10, 0xff, 0x61, 0xf2, 0x00, 0x15, 0xad] :=
  (sha256_any_ctx ctx zeroCtx [0x61, 0x62, 0x63]).trans sha256_zeroCtx_abc

/-! ## Evaluations at the block-boundary lengths -/

set_option maxRecDepth 100000 in
theorem sha256_zeroCtx_a55 :
    sha256 zeroCtx (List.replicate 55 0x61) = refSha256 (List.replicate 55 0x61) := by
  decide

set_option maxRecDepth 100000 in
theorem sha256_zeroCtx_a64 :
    sha256 zeroCtx (List.replicate 64 0x61) = refSha256 (List.replicate 64 0x61) := by
  decide

set_option maxRecDepth 100000 in
theorem sha256_zeroCtx_a65 :
    sha256 zeroCtx (List.replicate 65 0x61) = refSha256 (List.replicate 65 0x61) := by
  decide

set_option maxRecDepth 100000 in
theorem sha256_zeroCtx_a56 :
    sha256 zeroCtx (List.replicate 56 0x61) =
      [0xe6, 0xad, 0xb3, 0xeb, 0x2c, 0xa8, 0x53, 0x6c, 0x0a, 0xc3, 0x3f, 0x32, 0x18, 0xc6, 0x69, 0x76,
       0x54, 0x1f, 0x8f, 0x09, 0x8a, 0xde, 0x15, 0x63, 0x42, 0x82, 0xfc, 0x17, 0x4a, 0x3d, 0xe2, 0xe6] := by
  decide

set_option maxRecDepth 100000 in
theorem refSha256_a56 :
    refSha256 (List.replicate 56 0x61) =
      [0xb3, 0x54, 0x39, 0xa4, 0xac, 0x6f, 0x09, 0x48, 0xb6, 0xd6, 0xf9, 0xe3, 0xc6, 0xaf, 0x0f, 0x5f,
       0x59, 0x0c, 0xe2, 0x0f, 0x1b, 0xde, 0x70, 0x90, 0xef, 0x79, 0x70, 0x68, 0x6e, 0xc6, 0x73, 0x8a] := by
  decide

theorem sha256_ne_ref_a56 (ctx : SHA256_CTX) :
    sha256 ctx (List.replicate 56 0x61) ≠ refSha256 (List.replicate 56 0x61) := by
  rw [sha256_any_ctx ctx zeroCtx, sha256_zeroCtx_a56, refSha256_a56]
  decide

set_option maxRecDepth 100000 in
theorem sha256_zeroCtx_a57 :
    sha256 zeroCtx (List.replicate 57 0x61) =
      [0xd3, 0x9f, 0x8b, 0x29, 0xeb, 0x82, 0x14, 0x25, 0x35, 0x6c, 0x4e, 0xeb, 0x97, 0x0d, 0xea, 0x94,
       0x76, 0x1a, 0xc5, 0xea, 0xda, 0x6c, 0x03, 0x30, 0xfb, 0xe7, 0xd7, 0x0b, 0xb2, 0xfb, 0xe3, 0x6b] := by
  decide

set_option maxRecDepth 100000 in
theorem refSha256_a57 :
    refSha256 (List.replicate 57 0x61) =
      [0xf1, 0x3b, 0x2d, 0x72, 0x46, 0x59, 0xeb, 0x3b, 0xf4, 0x7f, 0x2d, 0xd6, 0xaf, 0x1a, 0xcc, 0xc8,
       0x7b, 0x81, 0xf0, 0x9f, 0x59, 0xf2, 0xb7, 0x5e, 0x5c, 0x0b, 0xed, 0x65, 0x89, 0xdf, 0xe8, 0xc6] := by
  decide

theorem sha256_ne_ref_a57 (ctx : SHA256_CTX) :
    sha256 ctx (List.replicate 57 0x61) ≠ refSha256 (List.replicate 57 0x61) := by
  rw [sha256_any_ctx ctx zeroCtx, sha256_zeroCtx_a57, refSha256_a57]
  decide

set_option maxRecDepth 100000 in
theorem sha256_zeroCtx_a63 :
    sha256 zeroCtx (List.replicate 63 0x61) =
      [0xef, 0x86, 0xc3, 0x61, 0xfe, 0xda, 0xa6, 0x66, 0x2e, 0x92, 0xdf, 0x00, 0xa9, 0xea, 0xe9, 0x77,
       0x33, 0x77, 0xcd, 0x22, 0x17, 0x84, 0xc9, 0x35, 0xcb, 0x39, 0x53, 0x83, 0x18, 0x0a, 0xfa, 0x43] := by
  decide

set_option maxRecDepth 100000 in
theorem refSha256_a63 :
    refSha256 (List.replicate 63 0x61) =
      [0x7d, 0x3e, 0x74, 0xa0, 0x5d, 0x7d, 0xb1, 0x5b, 0xce, 0x4a, 0xd9, 0xec, 0x06, 0x58, 0xea, 0x98,
       0xe3, 0xf0, 0x6e, 0xee, 0xcf, 0x16, 0xb4, 0xc6, 0xff, 0xf2, 0xda, 0x45, 0x7d, 0xdc, 0x2f, 0x34] := by
  decide

theorem sha256_ne_ref_a63 (ctx : SHA256_CTX) :
    sha256 ctx (List.replicate 63 0x61) ≠ refSha256 (List.replicate 63 0x61) := by
  rw [sha256_any_ctx ctx zeroCtx, sha256_zeroCtx_a63, refSha256_a63]
  decide

/-- C5 (fails on the code): `sha256` is claimed to return the reference digest
at each of the lengths 55, 56, 57, 63, 64 and 65. On the messages made of that
many bytes `0x61`, whatever the prior content of the local context, the digest
is the reference digest at the lengths 55, 64 and 65 and differs from it at the
lengths 56, 57 and 63. -/
theorem C5_boundary_lengths (ctx : SHA256_CTX) :
    (sha256 ctx (List.replicate 55 0x61) = refSha256 (List.replicate 55 0x61) ∧
     sha256 ctx (List.replicate 64 0x61) = refSha256 (List.replicate 64 0x61) ∧
     sha256 ctx (List.replicate 65 0x61) = refSha256 (List.replicate 65 0x61)) ∧
    (sha256 ctx (List.replicate 56 0x61) ≠ refSha256 (List.replicate 56 0x61) ∧
     sha256 ctx (List.replicate 57 0x61) ≠ refSha256 (List.replicate 57 0x61) ∧
     sha256 ctx (List.replicate 63 0x61) ≠ refSha256 (List.replicate 63 0x61)) :=
  ⟨⟨(sha256_any_ctx ctx zeroCtx _).trans sha256_zeroCtx_a55,
    (sha256_any_ctx ctx zeroCtx _).trans sha256_zeroCtx_a64,
    (sha256_any_ctx ctx zeroCtx _).trans sha256_zeroCtx_a65⟩,
   sha256_ne_ref_a56 ctx, sha256_ne_ref_a57 ctx, sha256_ne_ref_a63 ctx⟩

/-! ## Padding through `sha256_update` versus padding in `sha256_final` -/

set_option maxRecDepth 100000 in
theorem ctxA63_count : ctxA63.count = 63 := by
  decide

set_option maxRecDepth 100000 in
theorem update_claimedPadding_a63 :
    writeHash (sha256_update ctxA63 (claimedPadding 63)).state =
      [0x7d, 0x3e, 0x74, 0xa0, 0x5d, 0x7d, 0xb1, 0x5b, 0xce, 0x4a, 0xd9, 0xec, 0x06, 0x58, 0xea, 0x98,
       0xe3, 0xf0, 0x6e, 0xee, 0xcf, 0x16, 0xb4, 0xc6, 0xff, 0xf2, 0xda, 0x45, 0x7d, 0xdc, 0x2f, 0x34] := by
  decide

/-- C6 (fails on the code): the digest written by `sha256_final(ctx)` is claimed
to be the serialised state of `sha256_update(ctx, P)` for the padding string
`P`. On the context reached by `sha256_init` and an update with 63 bytes `0x61`
(counter 63, so that the `0x80` byte fills the buffer), `sha256_final` writes
`ef86c361...0afa43`, while absorbing the padding through `sha256_update` gives
`7d3e74a0...dc2f34`. -/
theorem C6_final_is_not_update_with_padding :
    ctxA63.count = 63 ∧
    (sha256_final ctxA63).2 =
      [0xef, 0x86, 0xc3, 0x61, 0xfe, 0xda, 0xa6, 0x66, 0x2e, 0x92, 0xdf, 0x00, 0xa9, 0xea, 0xe9, 0x77,
       0x33, 0x77, 0xcd, 0x22, 0x17, 0x84, 0xc9, 0x35, 0xcb, 0x39, 0x53, 0x83, 0x18, 0x0a, 0xfa, 0x43] ∧
    writeHash (sha256_update ctxA63 (claimedPadding ctxA63.count)).state =
      [0x7d, 0x3e, 0x74, 0xa0, 0x5d, 0x7d, 0xb1, 0x5b, 0xce, 0x4a, 0xd9, 0xec, 0x06, 0x58, 0xea, 0x98,
       0xe3, 0xf0, 0x6e, 0xee, 0xcf, 0x16, 0xb4, 0xc6, 0xff, 0xf2, 0xda, 0x45, 0x7d, 0xdc, 0x2f, 0x34] ∧
    (sha256_final ctxA63).2 ≠ writeHash (sha256_update ctxA63 (claimedPadding ctxA63.count)).state := by
  have h1 : (sha256_final ctxA63).2 = _ := sha256_zeroCtx_a63
  have h2 : writeHash (sha256_update ctxA63 (claimedPadding ctxA63.count)).state =
      writeHash (sha256_update ctxA63 (claimedPadding 63)).state := by rw [ctxA63_count]
  replace h2 := h2.trans update_claimedPadding_a63
  refine ⟨ctxA63_count, h1, h2, ?_⟩
  rw [h1, h2]
  decide

/-! ## No lifecycle state -/

theorem updateByte_count (ctx : SHA256_CTX) (b : Nat) :
    (updateByte ctx b).count = (ctx.count + 1) % 2 ^ 64 := by
  unfold updateByte
  simp only [CHUNK_SIZE]
  split <;> rfl

/-- The counter after an update, for a counter that fits its 64-bit type. -/
theorem sha256_update_count (ctx : SHA256_CTX) (data : List Nat) (h : ctx.count < 2 ^ 64) :
    (sha256_update ctx data).count = (ctx.count + data.length) % 2 ^ 64 := by
  induction data generalizing ctx with
  | nil => simpa [sha256_update] using (Nat.mod_eq_of_lt h).symm
  | cons b bs ih =>
    have hb := updateByte_count ctx b
    have := ih (updateByte ctx b) (by rw [hb]; exact Nat.mod_lt _ (by norm_num))
    show (sha256_update (updateByte ctx b) bs).count = _
    rw [this, hb, List.length_cons]
    omega

theorem putBytes_count_lt (ctx : SHA256_CTX) (v : Nat) (vs : List Nat) :
    ((v :: vs).foldl putByte ctx).count < 2 ^ 64 := by
  induction vs using List.reverseRecOn with
  | nil => exact Nat.mod_lt _ (by norm_num)
  | append_singleton vs w _ =>
    rw [← List.cons_append, List.foldl_append]
    exact Nat.mod_lt _ (by norm_num)

/-- The counter left by `sha256_final` fits its 64-bit type. -/
theorem sha256_final_count_lt (ctx : SHA256_CTX) : (sha256_final ctx).1.count < 2 ^ 64 := by
  show (finalPadded ctx).count < 2 ^ 64
  rw [finalPadded_eq]
  exact putBytes_count_lt ctx _ _

theorem writeHash_length (state : Fin 8 → Nat) : (writeHash state).length = 32 := rfl

set_option maxRecDepth 100000 in
/-- C7 (fails on the code): a second `sha256_final`, or a `sha256_update`, on a
context already finalised is claimed to signal a usage error. On the context
left by `sha256_init` then `sha256_final` (counter 64), a second `sha256_final`
runs to its end, writes the 32 bytes `a9e8913b...036e1c` and leaves the counter
at 128, and a `sha256_update` with one byte runs to its end and leaves the
counter at 65. -/
theorem C7_second_final_and_update_complete :
    (sha256_final (sha256_init zeroCtx)).1.count = 64 ∧
    (sha256_final (sha256_final (sha256_init zeroCtx)).1).2 =
      [0xa9, 0xe8, 0x91, 0x3b, 0x13, 0x86, 0x40, 0x96, 0xb9, 0xea, 0x59, 0x2f, 0x95, 0x48, 0xc8, 0x76,
       0x54, 0xaa, 0xf8, 0xdf, 0x24, 0xe3, 0x43, 0x76, 0x45, 0xfa, 0xc1, 0x74, 0xd1, 0x03, 0x6e, 0x1c] ∧
    (sha256_final (sha256_final (sha256_init zeroCtx)).1).1.count = 128 ∧
    (sha256_update (sha256_final (sha256_init zeroCtx)).1 [0x61]).count = 65 := by
  decide

/-! ## The output encoding -/

theorem writeHash_getD (state : Fin 8 → Nat) (i : Fin 8) (j : Fin 4) :
    (writeHash state).getD (4 * i.val + j.val) 0 = (state i >>> (24 - 8 * j.val)) &&& 0xFF := by
  fin_cases i <;> fin_cases j <;> rfl

/-- Every state word written by `sha256_transform` fits in 32 bits. -/
theorem transformState_lt (state : Fin 8 → Nat) (chunk : Fin 64 → Nat) (i : Fin 8) :
    transformState state chunk i < 2 ^ 32 := by
  fin_cases i <;> exact Nat.mod_lt _ (by norm_num)

/-- The four bytes cut out of a 32-bit word, read big-endian, give the word back. -/
theorem bigEndian_bytes (w : Nat) (h : w < 2 ^ 32) :
    ((w >>> 24) &&& 0xFF) * 2 ^ 24 + ((w >>> 16) &&& 0xFF) * 2 ^ 16 + ((w >>> 8) &&& 0xFF) * 2 ^ 8 +
      ((w >>> 0) &&& 0xFF) = w := by
  have hand : ∀ x : Nat, x &&& 0xFF = x % 256 := fun x => Nat.and_pow_two_sub_one_eq_mod x 8
  simp only [hand, Nat.shiftRight_eq_div_pow]
  omega

/-- C8: digest output encoding. For every context, `sha256_final` writes exactly
32 bytes; the state it leaves is the state after its compression of the padded
buffer; and for each `i < 8` and `j < 4`, output byte `4i+j` is
`(state[i] >> (24 - 8j)) & 0xFF`, so that the four bytes `4i .. 4i+3` read as a
big-endian integer are exactly state word `i`. -/
theorem C8_digest_output_encoding (ctx : SHA256_CTX) :
    (sha256_final ctx).2.length = 32 ∧
    (sha256_final ctx).1.state = transformState (finalPadded ctx).state (finalPadded ctx).buffer ∧
    ∀ i : Fin 8,
      (∀ j : Fin 4, (sha256_final ctx).2.getD (4 * i.val + j.val) 0 =
        ((sha256_final ctx).1.state i >>> (24 - 8 * j.val)) &&& 0xFF) ∧
      (sha256_final ctx).2.getD (4 * i.val) 0 * 2 ^ 24 +
        (sha256_final ctx).2.getD (4 * i.val + 1) 0 * 2 ^ 16 +
        (sha256_final ctx).2.getD (4 * i.val + 2) 0 * 2 ^ 8 +
        (sha256_final ctx).2.getD (4 * i.val + 3) 0 = (sha256_final ctx).1.state i := by
  refine ⟨writeHash_length _, rfl, fun i => ⟨fun j => writeHash_getD _ i j, ?_⟩⟩
  have h0 := writeHash_getD (sha256_final ctx).1.state i 0
  have h1 := writeHash_getD (sha256_final ctx).1.state i 1
  have h2 := writeHash_getD (sha256_final ctx).1.state i 2
  have h3 := writeHash_getD (sha256_final ctx).1.state i 3
  have hlt : (sha256_final ctx).1.state i < 2 ^ 32 := transformState_lt _ _ i
  have hbe := bigEndian_bytes _ hlt
  simp only [Fin.val_zero, Fin.val_one, Fin.val_two, Nat.add_zero, Nat.mul_zero, Nat.mul_one,
    Nat.sub_zero] at h0 h1 h2
  have e3 : ((3 : Fin 4) : Nat) = 3 := rfl
  rw [e3] at h3
  show (writeHash (sha256_final ctx).1.state).getD (4 * i.val) 0 * 2 ^ 24 +
        (writeHash (sha256_final ctx).1.state).getD (4 * i.val + 1) 0 * 2 ^ 16 +
        (writeHash (sha256_final ctx).1.state).getD (4 * i.val + 2) 0 * 2 ^ 8 +
        (writeHash (sha256_final ctx).1.state).getD (4 * i.val + 3) 0 = _
  rw [h0, h1, h2, h3]
  exact hbe

/-- C9: the digest does not depend on the uninitialised context. `sha256_init`
leaves the buffer as it found it, and yet for every message `M` and any two
prior contexts, `sha256_init`, `sha256_update` with `M`, `sha256_final` write
the same 32 bytes. -/
theorem C9_digest_independent_of_prior_context (c1 c2 : SHA256_CTX) (M : List Nat) :
    (sha256_init c1).buffer = c1.buffer ∧
    (sha256_final (sha256_update (sha256_init c1) M)).2 =
      (sha256_final (sha256_update (sha256_init c2) M)).2 ∧
    (sha256_final (sha256_update (sha256_init c1) M)).2.length = 32 :=
  ⟨rfl, sha256_any_ctx c1 c2 M, writeHash_length _⟩

/-! ## The initial state words -/

theorem isScaledSqrt_unique {p n m : Nat} (hn : IsScaledSqrt p n) (hm : IsScaledSqrt p m) :
    m = n := by
  unfold IsScaledSqrt at hn hm
  have h1 : n = Nat.sqrt (p * 2 ^ 64) := Nat.eq_sqrt.2 ⟨by nlinarith [hn.1], by nlinarith [hn.2]⟩
  have h2 : m = Nat.sqrt (p * 2 ^ 64) := Nat.eq_sqrt.2 ⟨by nlinarith [hm.1], by nlinarith [hm.2]⟩
  rw [h1, h2]

/-- The first eight primes, by their rank. -/
theorem nth_prime_first_eight :
    Nat.nth Nat.Prime 0 = 2 ∧ Nat.nth Nat.Prime 1 = 3 ∧ Nat.nth Nat.Prime 2 = 5 ∧
    Nat.nth Nat.Prime 3 = 7 ∧ Nat.nth Nat.Prime 4 = 11 ∧ Nat.nth Nat.Prime 5 = 13 ∧
    Nat.nth Nat.Prime 6 = 17 ∧ Nat.nth Nat.Prime 7 = 19 := by
  have c2 : Nat.count Nat.Prime 2 = 0 := by decide
  have c3 : Nat.count Nat.Prime 3 = 1 := by decide
  have c5 : Nat.count Nat.Prime 5 = 2 := by decide
  have c7 : Nat.count Nat.Prime 7 = 3 := by decide
  have c11 : Nat.count Nat.Prime 11 = 4 := by decide
  have c13 : Nat.count Nat.Prime 13 = 5 := by decide
  have c17 : Nat.count Nat.Prime 17 = 6 := by decide
  have c19 : Nat.count Nat.Prime 19 = 7 := by decide
  have p2 : Nat.Prime 2 := by norm_num
  have p3 : Nat.Prime 3 := by norm_num
  have p5 : Nat.Prime 5 := by norm_num
  have p7 : Nat.Prime 7 := by norm_num
  have p11 : Nat.Prime 11 := by norm_num
  have p13 : Nat.Prime 13 := by norm_num
  have p17 : Nat.Prime 17 := by norm_num
  have p19 : Nat.Prime 19 := by norm_num
  refine ⟨?_, ?_, ?_, ?_, ?_, ?_, ?_, ?_⟩
  · have h := Nat.nth_count p2; rw [c2] at h; exact h
  · have h := Nat.nth_count p3; rw [c3] at h; exact h
  · have h := Nat.nth_count p5; rw [c5] at h; exact h
  · have h := Nat.nth_count p7; rw [c7] at h; exact h
  · have h := Nat.nth_count p11; rw [c11] at h; exact h
  · have h := Nat.nth_count p13; rw [c13] at h; exact h
  · have h := Nat.nth_count p17; rw [c17] at h; exact h
  · have h := Nat.nth_count p19; rw [c19] at h; exact h

/-- C10: postcondition of `sha256_init`. For every prior context, after
`sha256_init` the byte counter is 0 and, for each `i < 8`, `state[i]` is
`n mod 2^32` for the one natural `n` with `n^2 ≤ p * 2^64 < (n+1)^2`, where `p`
is the prime of rank `i` (2, 3, 5, 7, 11, 13, 17, 19): the first 32 bits of the
fractional part of the square root of `p`. -/
theorem C10_init_postcondition (ctx : SHA256_CTX) :
    (sha256_init ctx).count = 0 ∧
    ∀ i : Fin 8, ∃ n : Nat, IsScaledSqrt (Nat.nth Nat.Prime i.val) n ∧
      (∀ m : Nat, IsScaledSqrt (Nat.nth Nat.Prime i.val) m → m = n) ∧
      (sha256_init ctx).state i = n % 2 ^ 32 := by
  obtain ⟨h0, h1, h2, h3, h4, h5, h6, h7⟩ := nth_prime_first_eight
  refine ⟨rfl, fun i => ?_⟩
  have key : ∀ (p n : Nat), Nat.nth Nat.Prime i.val = p → IsScaledSqrt p n →
      refH0.getD i.val 0 = n % 2 ^ 32 →
      ∃ n : Nat, IsScaledSqrt (Nat.nth Nat.Prime i.val) n ∧
        (∀ m : Nat, IsScaledSqrt (Nat.nth Nat.Prime i.val) m → m = n) ∧
        (sha256_init ctx).state i = n % 2 ^ 32 := by
    intro p n hp hn hs
    rw [hp]
    exact ⟨n, hn, fun m hm => isScaledSqrt_unique hn hm, (sha256_init_state ctx i).trans hs⟩
  fin_cases i
  · exact key 2 0x16a09e667 h0 (by unfold IsScaledSqrt; norm_num) (by decide)
  · exact key 3 0x1bb67ae85 h1 (by unfold IsScaledSqrt; norm_num) (by decide)
  · exact key 5 0x23c6ef372 h2 (by unfold IsScaledSqrt; norm_num) (by decide)
  · exact key 7 0x2a54ff53a h3 (by unfold IsScaledSqrt; norm_num) (by decide)
  · exact key 11 0x3510e527f h4 (by unfold IsScaledSqrt; norm_num) (by decide)
  · exact key 13 0x39b05688c h5 (by unfold IsScaledSqrt; norm_num) (by decide)
  · exact key 17 0x41f83d9ab h6 (by unfold IsScaledSqrt; norm_num) (by decide)
  · exact key 19 0x45be0cd19 h7 (by unfold IsScaledSqrt; norm_num) (by decide)

/-! ## Zero-length update and the byte counter -/

/-- C11: a zero-length update is a no-op. For every context, `sha256_update`
with no input bytes returns the context as it was: the state words, the byte
counter and the buffer are all unchanged. -/
theorem C11_zero_length_update_is_noop (ctx : SHA256_CTX) :
    sha256_update ctx [] = ctx ∧
    (sha256_update ctx []).state = ctx.state ∧
    (sha256_update ctx []).count = ctx.count ∧
    (sha256_update ctx []).buffer = ctx.buffer :=
  ⟨rfl, rfl, rfl, rfl⟩

/-- The counter after an update that does not overflow the 64-bit counter. -/
theorem sha256_update_count_exact (ctx : SHA256_CTX) (data : List Nat)
    (h : ctx.count + data.length < 2 ^ 64) :
    (sha256_update ctx data).count = ctx.count + data.length := by
  rw [sha256_update_count ctx data (by omega)]
  exact Nat.mod_eq_of_lt h

/-- C18: byte-counter invariant. For every context and every input whose length
added to the counter stays below 2^64, `sha256_update` leaves a counter equal
to the old counter plus the input length; it is therefore never smaller than
before, and strictly larger when the input is not empty. After `sha256_init`
and any sequence of updates (total length below 2^64) the counter is the total
number of bytes absorbed. -/
theorem C18_byte_counter (ctx : SHA256_CTX) (data : List Nat)
    (h : ctx.count + data.length < 2 ^ 64) :
    (sha256_update ctx data).count = ctx.count + data.length ∧
    ctx.count ≤ (sha256_update ctx data).count ∧
    (0 < data.length → ctx.count < (sha256_update ctx data).count) ∧
    ∀ (c0 : SHA256_CTX) (chunks : List (List Nat)), chunks.flatten.length < 2 ^ 64 →
      (chunks.foldl sha256_update (sha256_init c0)).count = chunks.flatten.length := by
  have hc := sha256_update_count_exact ctx data h
  refine ⟨hc, by omega, fun hpos => by omega, fun c0 chunks hlen => ?_⟩
  rw [update_chunks, sha256_update_count_exact _ _ (by rw [sha256_init_count]; omega),
    sha256_init_count, Nat.zero_add]

/-- C18 at a concrete input: a context with counter 62 updated with three bytes. -/
theorem C18_byte_counter_witness :
    (sha256_update zeroCtx (List.replicate 62 7)).count + [1, 2, 3].length < 2 ^ 64 ∧
    (sha256_update (sha256_update zeroCtx (List.replicate 62 7)) [1, 2, 3]).count =
      (sha256_update zeroCtx (List.replicate 62 7)).count + [1, 2, 3].length :=
  have h : (sha256_update zeroCtx (List.replicate 62 7)).count + [1, 2, 3].length < 2 ^ 64 := by
    rw [sha256_update_count_exact zeroCtx _ (by decide)]; decide
  ⟨h, (C18_byte_counter _ [1, 2, 3] h).1⟩

/-! ## Runs of `putByte` -/

theorem putBytes_state (vs : List Nat) (c : SHA256_CTX) :
    (vs.foldl putByte c).state = c.state := by
  induction vs generalizing c with
  | nil => rfl
  | cons v vs ih => rw [List.foldl_cons, ih, putByte_state]

theorem putBytes_count (vs : List Nat) (c : SHA256_CTX) (h : c.count + vs.length < 2 ^ 64) :
    (vs.foldl putByte c).count = c.count + vs.length := by
  induction vs generalizing c with
  | nil => rfl
  | cons v vs ih =>
    rw [List.length_cons] at h
    have hc : (putByte c v).count = c.count + 1 := by
      rw [putByte_count]; exact Nat.mod_eq_of_lt (by omega)
    rw [List.foldl_cons, ih _ (by omega), hc, List.length_cons]
    omega

theorem putBytes_count_mod (vs : List Nat) (c : SHA256_CTX) :
    (vs.foldl putByte c).count % 64 = (c.count + vs.length) % 64 := by
  induction vs generalizing c with
  | nil => rfl
  | cons v vs ih =>
    have hm := putByte_count_mod c v
    rw [List.foldl_cons, ih, List.length_cons]
    omega

/-- The buffer after a run of `putByte` that stays inside the current block:
the bytes land at the positions `count % 64, count % 64 + 1, ...` in order and
the other positions keep their content. -/
theorem putBytes_buffer (vs : List Nat) (c : SHA256_CTX) (h : c.count % 64 + vs.length ≤ 64)
    (i : Fin 64) :
    (vs.foldl putByte c).buffer i =
      if c.count % 64 ≤ i.val ∧ i.val < c.count % 64 + vs.length
      then vs.getD (i.val - c.count % 64) 0 else c.buffer i := by
  induction vs generalizing c with
  | nil =>
    rw [if_neg (by simp only [List.length_nil]; omega)]
    rfl
  | cons v vs ih =>
    rw [List.length_cons] at h
    rw [List.foldl_cons]
    have hm := putByte_count_mod c v
    have hi := i.isLt
    cases vs with
    | nil =>
      show store c.buffer (bufIdx c.count) v i = _
      by_cases hie : i = bufIdx c.count
      · have hv : i.val = c.count % 64 := congrArg Fin.val hie
        rw [hie, store_same, if_pos (by simp [bufIdx])]
        simp [bufIdx]
      · have hne : i.val ≠ c.count % 64 := fun e => hie (Fin.ext e)
        rw [store_other _ _ _ _ hie, if_neg (by simp only [List.length_singleton]; omega)]
    | cons w ws =>
      rw [List.length_cons] at h
      have hr : (putByte c v).count % 64 = c.count % 64 + 1 := by omega
      rw [ih (putByte c v) (by rw [hr, List.length_cons]; omega), hr]
      simp only [List.length_cons]
      by_cases hie : i = bufIdx c.count
      · have hv : i.val = c.count % 64 := congrArg Fin.val hie
        rw [if_neg (by omega), if_pos (by omega)]
        show store c.buffer (bufIdx c.count) v i = _
        rw [hie, store_same]
        simp [bufIdx]
      · have hne : i.val ≠ c.count % 64 := fun e => hie (Fin.ext e)
        have hb : (putByte c v).buffer i = c.buffer i := store_other _ _ _ _ hie
        rw [hb]
        by_cases hin : c.count % 64 + 1 ≤ i.val ∧ i.val < c.count % 64 + 1 + (ws.length + 1)
        · rw [if_pos hin, if_pos (by omega)]
          have e : i.val - c.count % 64 = (i.val - (c.count % 64 + 1)) + 1 := by omega
          rw [e, List.getD_cons_succ]
        · rw [if_neg hin, if_neg (by omega)]

/-! ## Updates that stay inside the current block -/

/-- While the input does not fill the buffer, `sha256_update` only stores and
counts: it is a run of `putByte`. -/
theorem update_inside_block (data : List Nat) (c : SHA256_CTX)
    (h : c.count % 64 + data.length < 64) :
    sha256_update c data = (data.map (· % 256)).foldl putByte c := by
  induction data generalizing c with
  | nil => rfl
  | cons b bs ih =>
    rw [List.length_cons] at h
    have hm := putByte_count_mod c (b % 256)
    have hstep : updateByte c b = putByte c (b % 256) := by
      unfold updateByte
      simp only [CHUNK_SIZE]
      rw [if_neg (by omega)]
    show sha256_update (updateByte c b) bs = _
    rw [hstep, ih _ (by omega), List.map_cons, List.foldl_cons]

/-- When the input fills the buffer exactly, `sha256_update` is a run of
`putByte` followed by one compression of the buffer. -/
theorem update_fill_block (data : List Nat) (c : SHA256_CTX)
    (h : c.count % 64 + data.length = 64) :
    sha256_update c data =
      sha256_transform ((data.map (· % 256)).foldl putByte c)
        ((data.map (· % 256)).foldl putByte c).buffer := by
  induction data using List.reverseRecOn with
  | nil => simp at h; omega
  | append_singleton bs b _ =>
    rw [List.length_append, List.length_singleton] at h
    have h1 : sha256_update c (bs ++ [b]) = updateByte (sha256_update c bs) b := by
      unfold sha256_update; rw [List.foldl_append]; rfl
    rw [h1, update_inside_block bs c (by omega), List.map_append, List.foldl_append]
    have hm := putBytes_count_mod (bs.map (· % 256)) c
    rw [List.length_map] at hm
    have hm2 := putByte_count_mod ((bs.map (· % 256)).foldl putByte c) (b % 256)
    unfold updateByte
    simp only [CHUNK_SIZE, List.map_cons, List.map_nil, List.foldl_cons, List.foldl_nil]
    rw [if_pos (by omega)]

/-! ## The padding bytes of `sha256_final` -/

/-- The length byte stored by iteration `i < 8` is byte `7 - i` of the bit
length, counted from the least significant one. -/
theorem lenByte_eq (x i : Nat) (hi : i < 8) :
    lenByte (x % 2 ^ 64) i = x / 256 ^ (7 - i) % 256 := by
  have hand : ∀ y : Nat, y &&& 0xFF = y % 256 := fun y => Nat.and_pow_two_sub_one_eq_mod y 8
  unfold lenByte
  rw [hand, Nat.shiftRight_eq_div_pow]
  interval_cases i <;> norm_num <;> omega

/-- The bytes appended by `sha256_final` are the padding of the specification:
`0x80`, `(55 - n) mod 64` zero bytes, the 8-byte big-endian bit length. -/
theorem finalBytes_eq (n : Nat) :
    finalBytes n =
      [0x80] ++ List.replicate ((55 + 64 - n % 64) % 64) 0 ++ refBE64 (8 * n) := by
  have hz : (119 - n % 64) % 64 = (55 + 64 - n % 64) % 64 := by omega
  have hl : (List.range 8).map (lenByte ((n * 8) % 2 ^ 64)) = refBE64 (8 * n) := by
    unfold refBE64
    apply List.map_congr_left
    intro i hi
    rw [lenByte_eq _ i (List.mem_range.1 hi), Nat.mul_comm]
  unfold finalBytes
  rw [hz, hl]
  rfl

/-- C16: padded length. For every context whose counter `n` satisfies
`n + 72 < 2^64`, `sha256_final` appends (by the store-and-count step) one
`0x80` byte, then exactly `(55 - n) mod 64` zero bytes, then the 8 bytes of the
big-endian encoding of `8 * n`, and then compresses the buffer; the counter it
leaves is `n + 1 + ((55 - n) mod 64) + 8`, the least multiple of 64 that is at
least `n + 9`. -/
theorem C16_padded_length (ctx : SHA256_CTX) (h : ctx.count + 72 < 2 ^ 64) :
    finalPadded ctx =
      ([0x80] ++ List.replicate ((55 + 64 - ctx.count % 64) % 64) 0 ++
        refBE64 (8 * ctx.count)).foldl putByte ctx ∧
    (sha256_final ctx).1 = sha256_transform (finalPadded ctx) (finalPadded ctx).buffer ∧
    (sha256_final ctx).1.count = ctx.count + 1 + (55 + 64 - ctx.count % 64) % 64 + 8 ∧
    (sha256_final ctx).1.count % 64 = 0 ∧
    ctx.count + 9 ≤ (sha256_final ctx).1.count ∧
    ∀ m : Nat, m % 64 = 0 → ctx.count + 9 ≤ m → (sha256_final ctx).1.count ≤ m := by
  have hpad : finalPadded ctx = (finalBytes ctx.count).foldl putByte ctx := finalPadded_eq ctx
  have hlen := finalBytes_length ctx.count
  have hcount : (sha256_final ctx).1.count =
      ctx.count + 1 + (55 + 64 - ctx.count % 64) % 64 + 8 := by
    show (finalPadded ctx).count = _
    rw [hpad, putBytes_count _ _ (by omega), hlen]
    omega
  refine ⟨by rw [hpad, finalBytes_eq], rfl, hcount, ?_, ?_, ?_⟩
  · omega
  · omega
  · intro m hm hle
    omega

/-- C16 at a concrete input: the context after `sha256_init` and three bytes. -/
theorem C16_padded_length_witness :
    (sha256_update (sha256_init zeroCtx) [0x61, 0x62, 0x63]).count + 72 < 2 ^ 64 ∧
    (sha256_final (sha256_update (sha256_init zeroCtx) [0x61, 0x62, 0x63])).1.count =
      (sha256_update (sha256_init zeroCtx) [0x61, 0x62, 0x63]).count + 1 +
        (55 + 64 - (sha256_update (sha256_init zeroCtx) [0x61, 0x62, 0x63]).count % 64) % 64 + 8 :=
  have h : (sha256_update (sha256_init zeroCtx) [0x61, 0x62, 0x63]).count + 72 < 2 ^ 64 := by
    rw [sha256_update_count_exact _ _ (by decide)]; decide
  ⟨h, (C16_padded_length _ h).2.2.1⟩

/-! ## The update loop over whole blocks -/

theorem refBlocks_short (M : List Nat) (h : M.length < 64) : refBlocks M = [] := by
  unfold refBlocks
  rw [Nat.div_eq_of_lt h]
  rfl

theorem refBlocks_cons (blk rest : List Nat) (h : blk.length = 64) :
    refBlocks (blk ++ rest) = blk :: refBlocks rest := by
  unfold refBlocks
  have hl : (blk ++ rest).length / 64 = rest.length / 64 + 1 := by
    rw [List.length_append, h]; omega
  rw [hl, List.range_succ_eq_map, List.map_cons, List.map_map]
  congr 1
  · rw [Nat.mul_zero, List.drop_zero, List.take_left' h]
  · apply List.map_congr_left
    intro i _
    show List.take 64 (List.drop (64 * (i + 1)) (blk ++ rest)) = _
    have e : 64 * (i + 1) = blk.length + 64 * i := by rw [h]; omega
    rw [e, List.drop_append]

theorem getD_map_mod (M : List Nat) (j : Nat) :
    (M.map (· % 256)).getD j 0 = M.getD j 0 % 256 := by
  have := List.getD_map M 0 (n := j) (· % 256)
  simpa using this

theorem getD_drop (M : List Nat) (i j : Nat) : (M.drop i).getD j 0 = M.getD (i + j) 0 := by
  rw [List.getD_eq_getElem?_getD, List.getD_eq_getElem?_getD, List.getElem?_drop]

/-- The buffer after a run of 64 `putByte` from a block boundary is the block
just written. -/
theorem putBytes_block (blk : List Nat) (c : SHA256_CTX) (hc : c.count % 64 = 0)
    (h : blk.length = 64) :
    ((blk.map (· % 256)).foldl putByte c).buffer = blockChunk blk := by
  funext i
  have hi := i.isLt
  rw [putBytes_buffer _ _ (by rw [List.length_map]; omega), List.length_map,
    if_pos (by omega), hc, Nat.sub_zero, getD_map_mod]
  rfl

/-- The update loop from a block boundary: the state is the compression folded
over the whole blocks of the input, and the buffer holds the bytes after the
last whole block. -/
theorem update_aligned (n : Nat) : ∀ (M : List Nat) (c : SHA256_CTX),
    M.length / 64 = n → c.count % 64 = 0 →
    (sha256_update c M).state = compressBlocks c.state (refBlocks M) ∧
    (sha256_update c M).count % 64 = M.length % 64 ∧
    ∀ i : Fin 64, i.val < M.length % 64 →
      (sha256_update c M).buffer i = M.getD (64 * (M.length / 64) + i.val) 0 % 256 := by
  induction n with
  | zero =>
    intro M c hn hc
    have hlt : M.length < 64 := by omega
    rw [update_inside_block M c (by omega), refBlocks_short M hlt]
    refine ⟨putBytes_state _ _, ?_, ?_⟩
    · rw [putBytes_count_mod, List.length_map]; omega
    · intro i hi
      rw [putBytes_buffer _ _ (by rw [List.length_map]; omega), List.length_map,
        if_pos (by omega), hc, Nat.sub_zero, getD_map_mod, hn, Nat.mul_zero, Nat.zero_add]
  | succ n ih =>
    intro M c hn hc
    have hge : 64 ≤ M.length := by omega
    have hsplit : M = M.take 64 ++ M.drop 64 := (List.take_append_drop 64 M).symm
    have htake : (M.take 64).length = 64 := by rw [List.length_take]; omega
    have hdrop : (M.drop 64).length = M.length - 64 := List.length_drop 64 M
    have hupd : sha256_update c M = sha256_update (sha256_update c (M.take 64)) (M.drop 64) := by
      conv_lhs => rw [hsplit]
      unfold sha256_update
      rw [List.foldl_append]
    have hfirst := update_fill_block (M.take 64) c (by omega)
    have hbuf := putBytes_block (M.take 64) c hc htake
    have hcm := putBytes_count_mod ((M.take 64).map (· % 256)) c
    rw [List.length_map] at hcm
    have hst := putBytes_state ((M.take 64).map (· % 256)) c
    have hc1 : (sha256_update c (M.take 64)).count % 64 = 0 := by
      rw [hfirst]
      show (((M.take 64).map (· % 256)).foldl putByte c).count % 64 = 0
      omega
    have hs1 : (sha256_update c (M.take 64)).state =
        transformState c.state (blockChunk (M.take 64)) := by
      rw [hfirst]
      show transformState _ _ = _
      rw [hbuf, hst]
    obtain ⟨ihs, ihc, ihb⟩ := ih (M.drop 64) (sha256_update c (M.take 64)) (by omega) hc1
    have hblocks : refBlocks M = M.take 64 :: refBlocks (M.drop 64) := by
      conv_lhs => rw [hsplit]
      exact refBlocks_cons _ _ htake
    rw [hupd]
    refine ⟨?_, ?_, ?_⟩
    · rw [ihs, hs1, hblocks]; rfl
    · rw [ihc, hdrop]; omega
    · intro i hi
      rw [ihb i (by omega), getD_drop, hdrop]
      have e : 64 + (64 * ((M.length - 64) / 64) + i.val) = 64 * (M.length / 64) + i.val := by
        omega
      rw [e]

/-! ## State and buffer after `sha256_init` and updates -/

/-- The state after `sha256_init` and one update over `M`. -/
theorem update_from_init (ctx0 : SHA256_CTX) (M : List Nat) :
    (sha256_update (sha256_init ctx0) M).state =
        compressBlocks (sha256_init ctx0).state (refBlocks M) ∧
    (sha256_update (sha256_init ctx0) M).count % 64 = M.length % 64 ∧
    ∀ i : Fin 64, i.val < M.length % 64 →
      (sha256_update (sha256_init ctx0) M).buffer i =
        M.getD (64 * (M.length / 64) + i.val) 0 % 256 :=
  update_aligned (M.length / 64) M (sha256_init ctx0) rfl rfl

theorem refBlocks_length (M : List Nat) : (refBlocks M).length = M.length / 64 := by
  simp [refBlocks]

theorem refBlocks_getD (M : List Nat) (j : Nat) (hj : j < M.length / 64) :
    (refBlocks M).getD j [] = (M.drop (64 * j)).take 64 := by
  unfold refBlocks
  rw [List.getD_eq_getElem?_getD, List.getElem?_map, List.getElem?_range hj]
  rfl

/-- C15: the state is advanced exactly once per completed 64-byte block. For
every prior context and byte sequence `M`, after `sha256_init` and
`sha256_update` over `M` the state words are the left fold of the compression
of `sha256_transform`, from the initial constants, over the `len(M) / 64`
consecutive 64-byte blocks of `M` (block `j` is bytes `64j .. 64j+63`), and
nothing else; and for every context and input with
`(count mod 64) + len < 64`, `sha256_update` leaves the state words unchanged. -/
theorem C15_state_advances_once_per_block (ctx0 : SHA256_CTX) (M : List Nat) :
    (sha256_update (sha256_init ctx0) M).state =
        compressBlocks (fun i => refH0.getD i.val 0) (refBlocks M) ∧
    (refBlocks M).length = M.length / 64 ∧
    (∀ j : Nat, j < M.length / 64 → (refBlocks M).getD j [] = (M.drop (64 * j)).take 64) ∧
    ∀ (ctx : SHA256_CTX) (data : List Nat), ctx.count % 64 + data.length < 64 →
      (sha256_update ctx data).state = ctx.state := by
  have hinit : (sha256_init ctx0).state = fun i => refH0.getD i.val 0 :=
    funext fun i => sha256_init_state ctx0 i
  refine ⟨?_, refBlocks_length M, refBlocks_getD M, ?_⟩
  · rw [(update_from_init ctx0 M).1, hinit]
  · intro ctx data h
    rw [update_inside_block data ctx h, putBytes_state]

set_option maxRecDepth 100000 in
/-- C15 at concrete inputs: 130 bytes absorbed after `sha256_init` (two whole
blocks), and an update with three bytes on a context whose counter is 60. -/
theorem C15_state_advances_once_per_block_witness :
    (sha256_update (sha256_init zeroCtx) (List.replicate 130 0x61)).state =
      compressBlocks (fun i => refH0.getD i.val 0)
        [List.replicate 64 0x61, List.replicate 64 0x61] ∧
    (sha256_update (sha256_update zeroCtx (List.replicate 60 0)) [1, 2, 3]).state =
      (sha256_update zeroCtx (List.replicate 60 0)).state :=
  ⟨(C15_state_advances_once_per_block zeroCtx (List.replicate 130 0x61)).1.trans
      (congrArg (compressBlocks fun i => refH0.getD i.val 0) (by decide)),
   (C15_state_advances_once_per_block zeroCtx []).2.2.2
      (sha256_update zeroCtx (List.replicate 60 0)) [1, 2, 3]
      (by rw [sha256_update_count_exact zeroCtx _ (by decide)]; decide)⟩

/-- C17: scratch-buffer invariant. For every prior context and every list of
chunks of bytes fed by successive `sha256_update` calls after `sha256_init`,
with `M` the concatenation of the chunks, `r = len(M) mod 64` and
`q = 64 * (len(M) / 64)`: `buffer[i] = M[q + i]` for every `i < r`. -/
theorem C17_scratch_buffer_invariant (ctx0 : SHA256_CTX) (chunks : List (List Nat))
    (hbytes : ∀ b ∈ chunks.flatten, b < 256) (i : Fin 64)
    (hi : i.val < chunks.flatten.length % 64) :
    (chunks.foldl sha256_update (sha256_init ctx0)).buffer i =
      chunks.flatten.getD (64 * (chunks.flatten.length / 64) + i.val) 0 := by
  rw [update_chunks, (update_from_init ctx0 chunks.flatten).2.2 i hi]
  have hlt : 64 * (chunks.flatten.length / 64) + i.val < chunks.flatten.length := by omega
  rw [List.getD_eq_getElem _ _ hlt]
  exact Nat.mod_eq_of_lt (hbytes _ (List.getElem_mem _))

/-- C17 at a concrete input: 66 bytes fed in three chunks, buffer position 1. -/
theorem C17_scratch_buffer_invariant_witness :
    ([List.replicate 40 1, [], List.replicate 26 2].foldl sha256_update
        (sha256_init zeroCtx)).buffer 1 = 2 :=
  (C17_scratch_buffer_invariant zeroCtx [List.replicate 40 1, [], List.replicate 26 2]
    (by decide) 1 (by decide)).trans (by decide)

/-! ## The block compressed by `sha256_final` -/

theorem refBE64_lt (n b : Nat) (hb : b ∈ refBE64 n) : b < 256 := by
  unfold refBE64 at hb
  obtain ⟨i, _, rfl⟩ := List.mem_map.1 hb
  exact Nat.mod_lt _ (by norm_num)

theorem refBE64_length (n : Nat) : (refBE64 n).length = 8 := by
  simp [refBE64]

/-- Only the low 64 bits of the bit length reach the length field. -/
theorem refBE64_mod (n : Nat) : refBE64 (8 * (n % 2 ^ 64)) = refBE64 (8 * n) := by
  unfold refBE64
  apply List.map_congr_left
  intro i hi
  have hi8 := List.mem_range.1 hi
  interval_cases i <;> norm_num <;> omega

theorem map_mod_of_lt (l : List Nat) (h : ∀ b ∈ l, b < 256) : l.map (· % 256) = l := by
  have : l.map (· % 256) = l.map id :=
    List.map_congr_left fun b hb => Nat.mod_eq_of_lt (h b hb)
  rw [this, List.map_id]

theorem finalBytes_lt (n b : Nat) (hb : b ∈ finalBytes n) : b < 256 := by
  rw [finalBytes_eq] at hb
  simp only [List.mem_append, List.mem_singleton, List.mem_replicate] at hb
  rcases hb with (rfl | ⟨_, rfl⟩) | hb
  · norm_num
  · norm_num
  · exact refBE64_lt _ _ hb

/-- When the padding wraps around the buffer (`count % 64 ≥ 56`), the block
that `sha256_final` compresses holds 56 zero bytes and the length field: no
byte of the input is left in it. -/
theorem finalPadded_wrapped (c : SHA256_CTX) (hr : 56 ≤ c.count % 64) :
    (finalPadded c).buffer = blockChunk (List.replicate 56 0 ++ refBE64 (8 * c.count)) ∧
    (finalPadded c).state = c.state := by
  have hlt : c.count % 64 < 64 := Nat.mod_lt _ (by norm_num)
  have hz : (55 + 64 - c.count % 64) % 64 = (63 - c.count % 64) + 56 := by omega
  have hsplit : finalBytes c.count =
      ([0x80] ++ List.replicate (63 - c.count % 64) 0) ++
        (List.replicate 56 0 ++ refBE64 (8 * c.count)) := by
    rw [finalBytes_eq, hz, List.replicate_add]
    simp only [List.append_assoc]
  refine ⟨?_, by rw [finalPadded_eq, putBytes_state]⟩
  rw [finalPadded_eq, hsplit, List.foldl_append]
  have hcm := putBytes_count_mod ([0x80] ++ List.replicate (63 - c.count % 64) 0) c
  have hpl : ([0x80] ++ List.replicate (63 - c.count % 64) 0).length = 64 - c.count % 64 := by
    simp; omega
  rw [hpl] at hcm
  have hbytes : ∀ b ∈ List.replicate 56 0 ++ refBE64 (8 * c.count), b < 256 := by
    intro b hb
    rcases List.mem_append.1 hb with h | h
    · rw [(List.mem_replicate.1 h).2]; norm_num
    · exact refBE64_lt _ _ h
  have hblock := putBytes_block (List.replicate 56 0 ++ refBE64 (8 * c.count))
    (List.foldl putByte c ([0x80] ++ List.replicate (63 - c.count % 64) 0)) (by omega)
    (by rw [List.length_append, List.length_replicate, refBE64_length])
  rw [map_mod_of_lt _ hbytes] at hblock
  exact hblock

/-- The digest of a message whose length modulo 64 is at least 56, in closed
form: only the whole blocks of the message and its length enter. -/
theorem sha256_wrapped (ctx : SHA256_CTX) (M : List Nat) (hr : 56 ≤ M.length % 64) :
    sha256 ctx M =
      writeHash (transformState (compressBlocks (fun i => refH0.getD i.val 0) (refBlocks M))
        (blockChunk (List.replicate 56 0 ++ refBE64 (8 * M.length)))) := by
  have hinit : (sha256_init ctx).state = fun i => refH0.getD i.val 0 :=
    funext fun i => sha256_init_state ctx i
  obtain ⟨hs, hc, _⟩ := update_from_init ctx M
  have hcount : (sha256_update (sha256_init ctx) M).count = M.length % 2 ^ 64 := by
    rw [sha256_update_count _ _ (by rw [sha256_init_count]; norm_num), sha256_init_count,
      Nat.zero_add]
  obtain ⟨hb, hst⟩ := finalPadded_wrapped (sha256_update (sha256_init ctx) M) (by omega)
  show writeHash (transformState (finalPadded (sha256_update (sha256_init ctx) M)).state
    (finalPadded (sha256_update (sha256_init ctx) M)).buffer) = _
  rw [hb, hst, hs, hinit, hcount, refBE64_mod]

/-- The whole blocks of a message are those of its longest prefix made of whole
blocks. -/
theorem refBlocks_take (M : List Nat) :
    refBlocks (M.take (64 * (M.length / 64))) = refBlocks M := by
  unfold refBlocks
  have hq : 64 * (M.length / 64) ≤ M.length := Nat.mul_div_le _ _
  have hl : (M.take (64 * (M.length / 64))).length / 64 = M.length / 64 := by
    rw [List.length_take, Nat.min_eq_left hq]; omega
  rw [hl]
  apply List.map_congr_left
  intro i hi
  have hi' := List.mem_range.1 hi
  rw [List.drop_take, List.take_take, Nat.min_eq_left (by omega)]

/-- C13: the digest ignores the trailing partial block when it has 56 or more
bytes. For any two messages of the same length `L` with `L mod 64 ≥ 56` that
agree on their first `64 * (L / 64)` bytes, and any prior contexts, `sha256`
writes the same digest. The reason: the single compression made by
`sha256_final` is on the buffer holding 56 zero bytes followed by the 8-byte
big-endian value of `8 * L`, applied to the state reached after the whole
blocks. -/
theorem C13_trailing_partial_block_ignored (ctx1 ctx2 : SHA256_CTX) (M1 M2 : List Nat)
    (hlen : M1.length = M2.length) (hr : 56 ≤ M1.length % 64)
    (hpre : M1.take (64 * (M1.length / 64)) = M2.take (64 * (M1.length / 64))) :
    sha256 ctx1 M1 = sha256 ctx2 M2 ∧
    sha256 ctx1 M1 =
      writeHash (transformState (compressBlocks (fun i => refH0.getD i.val 0) (refBlocks M1))
        (blockChunk (List.replicate 56 0 ++ refBE64 (8 * M1.length)))) := by
  have hblocks : refBlocks M1 = refBlocks M2 := by
    rw [← refBlocks_take M1, ← refBlocks_take M2, ← hlen, hpre]
  refine ⟨?_, sha256_wrapped ctx1 M1 hr⟩
  rw [sha256_wrapped ctx1 M1 hr, sha256_wrapped ctx2 M2 (by omega), hblocks, hlen]

/-- C13 at a concrete input: the 56-byte messages of all `0x00` and of all
`0xff` have the same digest. -/
theorem C13_trailing_partial_block_ignored_witness :
    sha256 zeroCtx (List.replicate 56 0x00) = sha256 zeroCtx (List.replicate 56 0xff) :=
  (C13_trailing_partial_block_ignored zeroCtx zeroCtx (List.replicate 56 0x00)
    (List.replicate 56 0xff) (by decide) (by decide) (by decide)).1

/-! ## The round constants -/

theorem smallPrimeTest_iff (n : Nat) (h : n < 324) : smallPrimeTest n = true ↔ Nat.Prime n := by
  unfold smallPrimeTest
  simp only [Bool.and_eq_true, decide_eq_true_eq, List.all_eq_true, List.mem_range,
    Bool.or_eq_true]
  constructor
  · rintro ⟨h2, hall⟩
    rw [Nat.prime_def_le_sqrt]
    refine ⟨h2, fun m hm2 hms hdvd => ?_⟩
    have hmm : m * m ≤ n := Nat.le_sqrt.1 hms
    have hm18 : m < 18 := by
      by_contra hge
      have : 18 * 18 ≤ m * m := Nat.mul_le_mul (by omega) (by omega)
      omega
    have hmn : m < n := by nlinarith
    rcases hall m hm18 with (hlt | hle) | hmod
    · omega
    · omega
    · exact hmod (Nat.mod_eq_zero_of_dvd hdvd)
  · intro hp
    refine ⟨hp.two_le, fun m _ => ?_⟩
    by_cases hm2 : m < 2
    · exact Or.inl (Or.inl hm2)
    · by_cases hnm : n ≤ m
      · exact Or.inl (Or.inr hnm)
      · refine Or.inr fun hmod => ?_
        rcases (Nat.dvd_prime hp).1 (Nat.dvd_of_mod_eq_zero hmod) with h1 | h1 <;> omega

set_option maxRecDepth 1000000 in
set_option maxHeartbeats 4000000 in
theorem roundConstantCheck_all : (List.range 64).all roundConstantCheck = true := by
  decide

theorem isScaledCbrt_unique {p n m : Nat} (hn : IsScaledCbrt p n) (hm : IsScaledCbrt p m) :
    m = n := by
  unfold IsScaledCbrt at hn hm
  rcases Nat.lt_trichotomy m n with h | h | h
  · have : (m + 1) ^ 3 ≤ n ^ 3 := Nat.pow_le_pow_left h 3
    omega
  · exact h
  · have : (n + 1) ^ 3 ≤ m ^ 3 := Nat.pow_le_pow_left h 3
    omega

/-- Entry `i` of `primes64` is the prime of rank `i`. -/
theorem nth_prime_eq (i : Nat) (hi : i < 64) : Nat.nth Nat.Prime i = primes64.getD i 0 := by
  have hall := List.all_eq_true.1 roundConstantCheck_all i (List.mem_range.2 hi)
  unfold roundConstantCheck at hall
  simp only [Bool.and_eq_true, decide_eq_true_eq] at hall
  obtain ⟨⟨⟨⟨⟨hlt, hprime⟩, hcount⟩, _⟩, _⟩, _⟩ := hall
  have hp : Nat.Prime (primes64.getD i 0) := (smallPrimeTest_iff _ hlt).1 hprime
  have hc : Nat.count Nat.Prime (primes64.getD i 0) = i := by
    refine Eq.trans ?_ hcount
    unfold Nat.count
    apply List.countP_congr
    intro b hb
    have hb' := List.mem_range.1 hb
    rw [decide_eq_true_eq]
    exact (smallPrimeTest_iff b (by omega)).symm
  have := Nat.nth_count hp
  rw [hc] at this
  exact this

/-- C19: the round-constant table is the exact SHA-256 table. The table has 64
entries and, for every `i < 64`, `k[i]` is `n mod 2^32` for the one natural `n`
with `n^3 ≤ p * 2^96 < (n+1)^3`, where `p` is the prime of rank `i`
(2, 3, 5, ..., 311): the first 32 bits of the fractional part of the cube root
of `p`. -/
theorem C19_round_constants (i : Fin 64) :
    k.length = 64 ∧
    ∃ n : Nat, IsScaledCbrt (Nat.nth Nat.Prime i.val) n ∧
      (∀ m : Nat, IsScaledCbrt (Nat.nth Nat.Prime i.val) m → m = n) ∧
      k.getD i.val 0 = n % 2 ^ 32 := by
  refine ⟨rfl, ?_⟩
  have hall := List.all_eq_true.1 roundConstantCheck_all i.val (List.mem_range.2 i.isLt)
  unfold roundConstantCheck at hall
  simp only [Bool.and_eq_true, decide_eq_true_eq] at hall
  obtain ⟨⟨⟨_, hk⟩, hlo⟩, hhi⟩ := hall
  rw [nth_prime_eq i.val i.isLt]
  have hn : IsScaledCbrt (primes64.getD i.val 0)
      (cbrtFloor (primes64.getD i.val 0) * 2 ^ 32 + k.getD i.val 0) := ⟨hlo, hhi⟩
  refine ⟨_, hn, fun m hm => isScaledCbrt_unique hn hm, ?_⟩
  rw [Nat.mul_add_mod_of_lt hk]

/-! ## The macros against their arithmetic definitions -/

/-- The macro `ROTRIGHT` is a true 32-bit right rotation on 32-bit words, for
every amount strictly between 0 and 32. -/
theorem ROTRIGHT_eq (x n : Nat) (hx : x < 2 ^ 32) (hn0 : 0 < n) (hn : n < 32) :
    ROTRIGHT x n = refRotr x n := by
  unfold ROTRIGHT refRotr
  have hpow : (2 : Nat) ^ 32 = 2 ^ n * 2 ^ (32 - n) := by
    rw [← Nat.pow_add]; congr 1; omega
  have hlo : x / 2 ^ n < 2 ^ (32 - n) := Nat.div_lt_of_lt_mul (by rw [← hpow]; exact hx)
  rw [Nat.shiftRight_eq_div_pow, Nat.shiftLeft_eq, hpow, Nat.mul_mod_mul_right, Nat.lor_comm,
    Nat.mul_comm (x % 2 ^ n), ← Nat.mul_add_lt_is_or hlo, Nat.add_comm]

theorem xor_all_ones (x : Nat) (hx : x < 2 ^ 32) : x ^^^ 0xFFFFFFFF = 2 ^ 32 - 1 - x := by
  have e1 : (0xFFFFFFFF : Nat) = 2 ^ 32 - 1 := by norm_num
  have e2 : 2 ^ 32 - 1 - x = 2 ^ 32 - (x + 1) := by omega
  rw [e1, e2]
  apply Nat.eq_of_testBit_eq
  intro i
  rw [Nat.testBit_xor, Nat.testBit_two_pow_sub_one, Nat.testBit_two_pow_sub_succ hx]
  by_cases hi : i < 32
  · simp [hi]
  · have hxi : x.testBit i = false :=
      Nat.testBit_lt_two_pow (lt_of_lt_of_le hx (Nat.pow_le_pow_right (by norm_num) (by omega)))
    simp [hi, hxi]

theorem CH_eq (x y z : Nat) (hx : x < 2 ^ 32) : CH x y z = refCh x y z := by
  unfold CH refCh
  rw [xor_all_ones x hx]

theorem MAJ_eq (x y z : Nat) : MAJ x y z = refMaj x y z := rfl

theorem EP0_eq (x : Nat) (hx : x < 2 ^ 32) : EP0 x = refBigSigma0 x := by
  unfold EP0 refBigSigma0
  rw [ROTRIGHT_eq x 2 hx (by norm_num) (by norm_num),
    ROTRIGHT_eq x 13 hx (by norm_num) (by norm_num),
    ROTRIGHT_eq x 22 hx (by norm_num) (by norm_num)]

theorem EP1_eq (x : Nat) (hx : x < 2 ^ 32) : EP1 x = refBigSigma1 x := by
  unfold EP1 refBigSigma1
  rw [ROTRIGHT_eq x 6 hx (by norm_num) (by norm_num),
    ROTRIGHT_eq x 11 hx (by norm_num) (by norm_num),
    ROTRIGHT_eq x 25 hx (by norm_num) (by norm_num)]

theorem SIG0_eq (x : Nat) (hx : x < 2 ^ 32) : SIG0 x = refSmallSigma0 x := by
  unfold SIG0 refSmallSigma0
  rw [ROTRIGHT_eq x 7 hx (by norm_num) (by norm_num),
    ROTRIGHT_eq x 18 hx (by norm_num) (by norm_num), Nat.shiftRight_eq_div_pow]

theorem SIG1_eq (x : Nat) (hx : x < 2 ^ 32) : SIG1 x = refSmallSigma1 x := by
  unfold SIG1 refSmallSigma1
  rw [ROTRIGHT_eq x 17 hx (by norm_num) (by norm_num),
    ROTRIGHT_eq x 19 hx (by norm_num) (by norm_num), Nat.shiftRight_eq_div_pow]

/-- Four bytes packed by shifts and ors are the big-endian sum. -/
theorem pack_bytes (b0 b1 b2 b3 : Nat) (h0 : b0 < 256) (h1 : b1 < 256) (h2 : b2 < 256)
    (h3 : b3 < 256) :
    ((b0 <<< 24) ||| (b1 <<< 16) ||| (b2 <<< 8) ||| b3) % 2 ^ 32 =
      b0 * 2 ^ 24 + b1 * 2 ^ 16 + b2 * 2 ^ 8 + b3 := by
  have s1 : 2 ^ 8 * b2 ||| b3 = 2 ^ 8 * b2 + b3 :=
    (Nat.mul_add_lt_is_or (i := 8) (by omega) b2).symm
  have s2 : 2 ^ 16 * b1 ||| (2 ^ 8 * b2 + b3) = 2 ^ 16 * b1 + (2 ^ 8 * b2 + b3) :=
    (Nat.mul_add_lt_is_or (i := 16) (by omega) b1).symm
  have s3 : 2 ^ 24 * b0 ||| (2 ^ 16 * b1 + (2 ^ 8 * b2 + b3)) =
      2 ^ 24 * b0 + (2 ^ 16 * b1 + (2 ^ 8 * b2 + b3)) :=
    (Nat.mul_add_lt_is_or (i := 24) (by omega) b0).symm
  rw [Nat.shiftLeft_eq, Nat.shiftLeft_eq, Nat.shiftLeft_eq, Nat.lor_assoc, Nat.lor_assoc,
    Nat.mul_comm b0, Nat.mul_comm b1, Nat.mul_comm b2, s1, s2, s3]
  omega

/-! ## The message schedule and the rounds against the reference -/

theorem getD_lt_of_forall (w : List Nat) (B j : Nat) (hB : 0 < B) (h : ∀ x ∈ w, x < B) :
    w.getD j 0 < B := by
  by_cases hj : j < w.length
  · rw [List.getD_eq_getElem _ _ hj]; exact h _ (List.getElem_mem _)
  · rw [List.getD_eq_default _ _ (by omega)]; exact hB

theorem getD_ofFn (chunk : Fin 64 → Nat) (j : Nat) (hj : j < 64) :
    (List.ofFn chunk).getD j 0 = chunk ⟨j, hj⟩ := by
  rw [List.getD_eq_getElem _ _ (by rw [List.length_ofFn]; exact hj), List.getElem_ofFn]

/-- The first 16 schedule words, for a block of bytes. -/
theorem packWords_eq (chunk : Fin 64 → Nat) (hc : ∀ j, chunk j < 256) :
    List.ofFn (packWord chunk) =
      (List.range 16).map fun i =>
        (List.ofFn chunk).getD (4 * i) 0 * 2 ^ 24 + (List.ofFn chunk).getD (4 * i + 1) 0 * 2 ^ 16 +
          (List.ofFn chunk).getD (4 * i + 2) 0 * 2 ^ 8 + (List.ofFn chunk).getD (4 * i + 3) 0 := by
  apply List.ext_getElem
  · simp
  · intro i h1 h2
    have hi : i < 16 := by simpa using h1
    rw [List.getElem_ofFn, List.getElem_map, List.getElem_range,
      getD_ofFn chunk (4 * i) (by omega), getD_ofFn chunk (4 * i + 1) (by omega),
      getD_ofFn chunk (4 * i + 2) (by omega), getD_ofFn chunk (4 * i + 3) (by omega)]
    exact pack_bytes _ _ _ _ (hc _) (hc _) (hc _) (hc _)

theorem packWord_lt (chunk : Fin 64 → Nat) (i : Fin 16) : packWord chunk i < 2 ^ 32 :=
  Nat.mod_lt _ (by norm_num)

/-- One step of the schedule loop is one step of the reference schedule, on a
list of 32-bit words whose length is the loop index. -/
theorem extendSchedule_eq (w : List Nat) (h : ∀ x ∈ w, x < 2 ^ 32) :
    extendSchedule w w.length = refNextWord w := by
  unfold extendSchedule refNextWord
  have hB : (0 : Nat) < 2 ^ 32 := by norm_num
  rw [SIG1_eq _ (getD_lt_of_forall w _ _ hB h), SIG0_eq _ (getD_lt_of_forall w _ _ hB h)]

theorem refNextWord_spec (w : List Nat) (h : ∀ x ∈ w, x < 2 ^ 32) :
    (refNextWord w).length = w.length + 1 ∧ ∀ x ∈ refNextWord w, x < 2 ^ 32 := by
  unfold refNextWord
  refine ⟨by simp, fun x hx => ?_⟩
  rcases List.mem_append.1 hx with hx | hx
  · exact h x hx
  · rw [List.mem_singleton.1 hx]; exact Nat.mod_lt _ (by norm_num)

theorem schedule_loop_eq (n s : Nat) (w : List Nat) (hl : w.length = s)
    (h : ∀ x ∈ w, x < 2 ^ 32) :
    (List.range' s n).foldl extendSchedule w = (List.range n).foldl (fun v _ => refNextWord v) w ∧
    ((List.range n).foldl (fun v _ => refNextWord v) w).length = s + n ∧
    ∀ x ∈ (List.range n).foldl (fun v _ => refNextWord v) w, x < 2 ^ 32 := by
  induction n with
  | zero => exact ⟨rfl, hl, h⟩
  | succ n ih =>
    obtain ⟨ih1, ih2, ih3⟩ := ih
    rw [List.range'_concat, List.range_succ, List.foldl_append, List.foldl_append, ih1]
    simp only [List.foldl_cons, List.foldl_nil, Nat.one_mul]
    obtain ⟨hlen, hlt⟩ := refNextWord_spec _ ih3
    refine ⟨?_, by rw [hlen, ih2]; omega, hlt⟩
    rw [← ih2]
    exact extendSchedule_eq _ ih3

/-- The message schedule built by `sha256_transform` is the reference schedule
of the block. -/
theorem schedule_eq (chunk : Fin 64 → Nat) (hc : ∀ j, chunk j < 256) :
    schedule chunk = refSchedule (List.ofFn chunk) ∧
    (schedule chunk).length = 64 := by
  have hw : ∀ x ∈ List.ofFn (packWord chunk), x < 2 ^ 32 := by
    intro x hx
    obtain ⟨i, rfl⟩ := (List.mem_ofFn _ _).1 hx
    exact packWord_lt chunk i
  obtain ⟨h1, h2, _⟩ := schedule_loop_eq 48 16 (List.ofFn (packWord chunk)) (by simp) hw
  unfold schedule refSchedule
  refine ⟨?_, by rw [h1, h2]⟩
  rw [h1, packWords_eq chunk hc]

theorem round_eq (m : List Nat) (w : Work) (i : Nat) (h : ∀ x ∈ w.toList, x < 2 ^ 32) :
    (round m w i).toList = refRound w.toList (k.getD i 0) (m.getD i 0) ∧
    ∀ x ∈ (round m w i).toList, x < 2 ^ 32 := by
  simp only [Work.toList, List.mem_cons, List.mem_singleton, List.not_mem_nil, or_false,
    forall_eq_or_imp, forall_eq] at h
  obtain ⟨ha, hb, hc, hd, he, hf, hg, hh⟩ := h
  have hB : ∀ y : Nat, y % 2 ^ 32 < 2 ^ 32 := fun y => Nat.mod_lt _ (by norm_num)
  constructor
  · unfold round refRound Work.toList
    simp only
    rw [EP1_eq _ he, CH_eq _ _ _ he, EP0_eq _ ha, MAJ_eq]
  · unfold round Work.toList
    simp only [List.mem_cons, List.mem_singleton, List.not_mem_nil, or_false,
      forall_eq_or_imp, forall_eq]
    exact ⟨hB _, ha, hb, hc, hB _, he, hf, hg⟩

/-- The 64 rounds of `sha256_transform` are the fold of the reference round
over the round constants paired with the schedule. -/
theorem rounds_eq (m : List Nat) (hm : m.length = 64) (w0 : Work)
    (h0 : ∀ x ∈ w0.toList, x < 2 ^ 32) (n : Nat) (hn : n ≤ 64) :
    ((List.range n).foldl (round m) w0).toList =
      ((List.zip refK m).take n).foldl (fun v p => refRound v p.1 p.2) w0.toList ∧
    ∀ x ∈ ((List.range n).foldl (round m) w0).toList, x < 2 ^ 32 := by
  induction n with
  | zero => exact ⟨rfl, h0⟩
  | succ n ih =>
    obtain ⟨ih1, ih2⟩ := ih (by omega)
    have hk : k.length = 64 := rfl
    have hz : n < (List.zip refK m).length := by
      rw [List.length_zip]; show n < min k.length m.length; rw [hk, hm]; omega
    have hget : (List.zip refK m)[n]? = some (k.getD n 0, m.getD n 0) := by
      rw [List.getElem?_eq_getElem hz, List.getElem_zip,
        List.getD_eq_getElem k 0 (by rw [hk]; omega), List.getD_eq_getElem m 0 (by omega)]
      rfl
    obtain ⟨r1, r2⟩ := round_eq m ((List.range n).foldl (round m) w0) n ih2
    rw [List.range_succ, List.foldl_append, List.take_succ, List.foldl_append, hget]
    simp only [List.foldl_cons, List.foldl_nil, Option.toList_some]
    exact ⟨by rw [r1, ih1], r2⟩

/-! ## The compression against the reference compression -/

/-- The words written back by `sha256_transform`: the old words plus the
working variables after the 64 rounds, modulo 2^32. -/
theorem transformState_ofFn (state : Fin 8 → Nat) (chunk : Fin 64 → Nat) :
    List.ofFn (transformState state chunk) =
      List.zipWith (fun x y => (x + y) % 2 ^ 32) (List.ofFn state)
        ((List.range 64).foldl (round (schedule chunk))
          (Work.mk (state 0) (state 1) (state 2) (state 3) (state 4) (state 5)
            (state 6) (state 7))).toList := by
  unfold transformState
  simp only
  generalize (List.range 64).foldl (round (schedule chunk))
    (Work.mk (state 0) (state 1) (state 2) (state 3) (state 4) (state 5)
      (state 6) (state 7)) = w
  rfl

/-- The state written by `sha256_transform`, as a list, is the reference
compression of the state and the block. -/
theorem transformState_eq_refCompress (state : Fin 8 → Nat) (chunk : Fin 64 → Nat)
    (hs : ∀ i, state i < 2 ^ 32) (hc : ∀ j, chunk j < 256) :
    List.ofFn (transformState state chunk) =
      refCompress (List.ofFn state) (List.ofFn chunk) := by
  obtain ⟨hsched, hlen⟩ := schedule_eq chunk hc
  have h0 : ∀ x ∈ (Work.mk (state 0) (state 1) (state 2) (state 3) (state 4) (state 5)
      (state 6) (state 7)).toList, x < 2 ^ 32 := by
    simp only [Work.toList, List.mem_cons, List.mem_singleton, List.not_mem_nil, or_false,
      forall_eq_or_imp, forall_eq]
    exact ⟨hs 0, hs 1, hs 2, hs 3, hs 4, hs 5, hs 6, hs 7⟩
  obtain ⟨hr, _⟩ := rounds_eq (schedule chunk) hlen _ h0 64 (le_refl _)
  have hk : k.length = 64 := rfl
  have htake : (List.zip refK (schedule chunk)).take 64 = List.zip refK (schedule chunk) := by
    apply List.take_of_length_le
    rw [List.length_zip]; show min k.length _ ≤ 64; rw [hk, hlen]; simp
  rw [htake, hsched] at hr
  have hH : (Work.mk (state 0) (state 1) (state 2) (state 3) (state 4)
      (state 5) (state 6) (state 7)).toList = List.ofFn state := rfl
  rw [hH] at hr
  rw [transformState_ofFn, hsched, hr]
  rfl

theorem blockChunk_lt (blk : List Nat) (j : Fin 64) : blockChunk blk j < 256 :=
  Nat.mod_lt _ (by norm_num)

theorem ofFn_blockChunk (blk : List Nat) (hl : blk.length = 64) (hb : ∀ b ∈ blk, b < 256) :
    List.ofFn (blockChunk blk) = blk := by
  apply List.ext_getElem
  · rw [List.length_ofFn, hl]
  · intro i h1 h2
    rw [List.getElem_ofFn]
    show blk.getD i 0 % 256 = _
    rw [List.getD_eq_getElem _ _ h2]
    exact Nat.mod_eq_of_lt (hb _ (List.getElem_mem _))

/-- The compression of the code folded over byte blocks is the reference
compression folded over the same blocks. -/
theorem compressBlocks_eq (blocks : List (List Nat)) (s : Fin 8 → Nat)
    (hs : ∀ i, s i < 2 ^ 32)
    (hb : ∀ blk ∈ blocks, blk.length = 64 ∧ ∀ b ∈ blk, b < 256) :
    List.ofFn (compressBlocks s blocks) = blocks.foldl refCompress (List.ofFn s) := by
  induction blocks generalizing s with
  | nil => rfl
  | cons blk rest ih =>
    obtain ⟨hl, hlt⟩ := hb blk (List.mem_cons_self _ _)
    have step := transformState_eq_refCompress s (blockChunk blk) hs (blockChunk_lt blk)
    rw [ofFn_blockChunk blk hl hlt] at step
    show List.ofFn (compressBlocks (transformState s (blockChunk blk)) rest) = _
    rw [ih _ (transformState_lt s _) (fun b hb' => hb b (List.mem_cons_of_mem _ hb')), step,
      List.foldl_cons]

/-- C14: the compression core implements the specified round function. For
every context whose state words are 32-bit values and every block of 64 bytes,
the state left by `sha256_transform`, as a list of eight words, is the
reference compression of the state and the block: big-endian message words,
schedule recurrence with `σ0`/`σ1`, 64 rounds with `T1`, `T2` and the shift of
`a..h`, word-wise addition into the state, all modulo 2^32; the counter and the
buffer are untouched; and `ROTRIGHT(x, n)` is the 32-bit right rotation of `x`
for every `0 < n < 32`, the amounts used included. -/
theorem C14_transform_is_reference_compression (ctx : SHA256_CTX) (chunk : Fin 64 → Nat)
    (hs : ∀ i, ctx.state i < 2 ^ 32) (hc : ∀ j, chunk j < 256) :
    List.ofFn (sha256_transform ctx chunk).state =
        refCompress (List.ofFn ctx.state) (List.ofFn chunk) ∧
    (sha256_transform ctx chunk).count = ctx.count ∧
    (sha256_transform ctx chunk).buffer = ctx.buffer ∧
    ∀ x n : Nat, x < 2 ^ 32 → 0 < n → n < 32 → ROTRIGHT x n = refRotr x n :=
  ⟨transformState_eq_refCompress ctx.state chunk hs hc, rfl, rfl, ROTRIGHT_eq⟩

/-- C14 at a concrete input: the initial state and the all-zero block. -/
theorem C14_transform_is_reference_compression_witness :
    (∀ i, (sha256_init zeroCtx).state i < 2 ^ 32) ∧ (∀ j, zeroCtx.buffer j < 256) ∧
    List.ofFn (sha256_transform (sha256_init zeroCtx) zeroCtx.buffer).state =
      refCompress (List.ofFn (sha256_init zeroCtx).state) (List.ofFn zeroCtx.buffer) :=
  have hs : ∀ i, (sha256_init zeroCtx).state i < 2 ^ 32 := by decide
  have hc : ∀ j, zeroCtx.buffer j < 256 := fun _ => (by norm_num : (0 : Nat) < 256)
  ⟨hs, hc, (C14_transform_is_reference_compression (sha256_init zeroCtx) zeroCtx.buffer hs hc).1⟩

/-! ## Correctness when the padding fits in the current block -/

/-- When the pending bytes leave room for `0x80` and the length field
(`count % 64 ≤ 55`), the context left by `sha256_final` is the one
`sha256_update` reaches on the padding bytes. -/
theorem final_eq_update (c : SHA256_CTX) (hr : c.count % 64 ≤ 55) :
    (sha256_final c).1 = sha256_update c (finalBytes c.count) := by
  have hlen := finalBytes_length c.count
  rw [update_fill_block (finalBytes c.count) c (by omega),
    map_mod_of_lt _ (finalBytes_lt c.count), ← finalPadded_eq]
  rfl

theorem finalBytes_eq_refPadding (n : Nat) : finalBytes n = refPadding n := by
  have hz : (55 + 64 - n % 64) % 64 = (56 + 64 - (n + 1) % 64) % 64 := by omega
  rw [finalBytes_eq, hz]
  rfl

theorem refBlocks_mem (l blk : List Nat) (h : blk ∈ refBlocks l) :
    blk.length = 64 ∧ ∀ b ∈ blk, b ∈ l := by
  unfold refBlocks at h
  obtain ⟨i, hi, rfl⟩ := List.mem_map.1 h
  have hi' := List.mem_range.1 hi
  have hle : 64 * (l.length / 64) ≤ l.length := Nat.mul_div_le _ _
  refine ⟨by rw [List.length_take, List.length_drop]; omega, fun b hb => ?_⟩
  exact List.mem_of_mem_drop (List.mem_of_mem_take hb)

theorem wordBytes_eq (w : Nat) :
    ((List.range 4).map fun j => (w >>> (24 - j * 8)) &&& 0xFF) = refWordBytes w := by
  have hand : ∀ y : Nat, y &&& 0xFF = y % 256 := fun y => Nat.and_pow_two_sub_one_eq_mod y 8
  show [(w >>> 24) &&& 0xFF, (w >>> 16) &&& 0xFF, (w >>> 8) &&& 0xFF, (w >>> 0) &&& 0xFF] = _
  unfold refWordBytes
  simp only [hand, Nat.shiftRight_eq_div_pow, Nat.pow_zero, Nat.div_one]

/-- The output loops of `sha256_final` list each state word as four big-endian
bytes. -/
theorem writeHash_eq (s : Fin 8 → Nat) : writeHash s = (List.ofFn s).flatMap refWordBytes := by
  have hof : List.ofFn s = [s 0, s 1, s 2, s 3, s 4, s 5, s 6, s 7] := rfl
  have hfr : List.finRange 8 = [0, 1, 2, 3, 4, 5, 6, 7] := rfl
  unfold writeHash
  rw [hof, hfr]
  simp only [List.flatMap_cons, List.flatMap_nil, wordBytes_eq]

/-- The digest of a message whose length modulo 64 is below 56 is the reference
digest. -/
theorem sha256_eq_ref_of_fit (ctx : SHA256_CTX) (M : List Nat) (hbytes : ∀ b ∈ M, b < 256)
    (hlen : M.length < 2 ^ 61) (hr : M.length % 64 < 56) :
    sha256 ctx M = refSha256 M := by
  have hcount : (sha256_update (sha256_init ctx) M).count = M.length := by
    rw [sha256_update_count_exact _ _ (by rw [sha256_init_count]; omega), sha256_init_count,
      Nat.zero_add]
  have hfin := final_eq_update (sha256_update (sha256_init ctx) M) (by rw [hcount]; omega)
  rw [hcount, finalBytes_eq_refPadding] at hfin
  have happ : sha256_update (sha256_update (sha256_init ctx) M) (refPadding M.length) =
      sha256_update (sha256_init ctx) (M ++ refPadding M.length) := by
    unfold sha256_update; rw [List.foldl_append]
  have hstate := (update_from_init ctx (M ++ refPadding M.length)).1
  have hinit : (sha256_init ctx).state = fun i => refH0.getD i.val 0 :=
    funext fun i => sha256_init_state ctx i
  have hH0 : List.ofFn (fun i : Fin 8 => refH0.getD i.val 0) = refH0 := rfl
  have hH0lt : ∀ i : Fin 8, refH0.getD i.val 0 < 2 ^ 32 := by decide
  have hblocks : ∀ blk ∈ refBlocks (M ++ refPadding M.length),
      blk.length = 64 ∧ ∀ b ∈ blk, b < 256 := by
    intro blk hblk
    obtain ⟨hl, hmem⟩ := refBlocks_mem _ _ hblk
    refine ⟨hl, fun b hb => ?_⟩
    rcases List.mem_append.1 (hmem b hb) with h | h
    · exact hbytes b h
    · rw [← finalBytes_eq_refPadding] at h
      exact finalBytes_lt _ _ h
  show writeHash (sha256_final (sha256_update (sha256_init ctx) M)).1.state = _
  rw [hfin, happ, hstate, hinit, writeHash_eq, compressBlocks_eq _ _ hH0lt hblocks, hH0]
  rfl

/-- When the padding fits (`len % 64 < 56`), the block that `sha256_final`
compresses is the pending bytes followed by the padding. -/
theorem finalPadded_fit (ctx : SHA256_CTX) (M : List Nat) (hlen : M.length < 2 ^ 61)
    (hr : M.length % 64 < 56) :
    (finalPadded (sha256_update (sha256_init ctx) M)).buffer =
      blockChunk (M.drop (64 * (M.length / 64)) ++ refPadding M.length) := by
  have hcount : (sha256_update (sha256_init ctx) M).count = M.length := by
    rw [sha256_update_count_exact _ _ (by rw [sha256_init_count]; omega), sha256_init_count,
      Nat.zero_add]
  obtain ⟨_, _, hbuf⟩ := update_from_init ctx M
  have hfl := finalBytes_length M.length
  have hdl : (M.drop (64 * (M.length / 64))).length = M.length % 64 := by
    rw [List.length_drop]; omega
  funext i
  have hi := i.isLt
  rw [finalPadded_eq, putBytes_buffer _ _ (by rw [hcount, hfl]; omega), hcount,
    ← finalBytes_eq_refPadding]
  show _ = (M.drop (64 * (M.length / 64)) ++ finalBytes M.length).getD i.val 0 % 256
  by_cases hin : M.length % 64 ≤ i.val
  · rw [if_pos ⟨hin, by rw [hfl]; omega⟩, List.getD_append_right _ _ _ _ (by rw [hdl]; exact hin),
      hdl]
    exact (Nat.mod_eq_of_lt
      (getD_lt_of_forall _ 256 _ (by norm_num) (finalBytes_lt M.length))).symm
  · rw [if_neg (fun h => hin h.1), hbuf i (by omega),
      List.getD_append _ _ _ _ (by rw [hdl]; omega), getD_drop]

/-- C12: correctness away from the padding spill. For every prior context and
every byte sequence `M` of bytes (values below 256) with length below 2^61 and
length mod 64 below 56, `sha256` writes the reference SHA-256 digest of `M`;
the one block compressed by `sha256_final` is then the pending bytes, `0x80`,
zero bytes up to offset 56 and the 8-byte big-endian bit length, and the
context it leaves is the one `sha256_update` reaches on the message followed
by the padding. -/
theorem C12_correct_when_padding_fits (ctx : SHA256_CTX) (M : List Nat)
    (hbytes : ∀ b ∈ M, b < 256) (hlen : M.length < 2 ^ 61) (hr : M.length % 64 < 56) :
    sha256 ctx M = refSha256 M ∧
    (finalPadded (sha256_update (sha256_init ctx) M)).buffer =
      blockChunk (M.drop (64 * (M.length / 64)) ++ refPadding M.length) ∧
    (sha256_final (sha256_update (sha256_init ctx) M)).1 =
      sha256_update (sha256_init ctx) (M ++ refPadding M.length) := by
  refine ⟨sha256_eq_ref_of_fit ctx M hbytes hlen hr, finalPadded_fit ctx M hlen hr, ?_⟩
  have hcount : (sha256_update (sha256_init ctx) M).count = M.length := by
    rw [sha256_update_count_exact _ _ (by rw [sha256_init_count]; omega), sha256_init_count,
      Nat.zero_add]
  rw [final_eq_update _ (by rw [hcount]; omega), hcount, finalBytes_eq_refPadding]
  unfold sha256_update
  rw [List.foldl_append]

/-- C12 at a concrete input: the three bytes of "abc". -/
theorem C12_correct_when_padding_fits_witness :
    sha256 zeroCtx [0x61, 0x62, 0x63] = refSha256 [0x61, 0x62, 0x63] :=
  (C12_correct_when_padding_fits zeroCtx [0x61, 0x62, 0x63] (by decide) (by decide)
    (by decide)).1

/-! ## Operations on a context already finalised -/

/-- The counter left by `sha256_final` is a multiple of 64, whatever the
counter was. -/
theorem sha256_final_count_mod (ctx : SHA256_CTX) : (sha256_final ctx).1.count % 64 = 0 := by
  show (finalPadded ctx).count % 64 = 0
  rw [finalPadded_eq, putBytes_count_mod, finalBytes_length]
  omega

/-- The padding bytes appended from a block boundary: they fill one block. -/
theorem finalBytes_aligned (n : Nat) (h : n % 64 = 0) :
    finalBytes n = [0x80] ++ List.replicate 55 0 ++ refBE64 (8 * n) ∧
    (finalBytes n).length = 64 := by
  have hz : (55 + 64 - n % 64) % 64 = 55 := by omega
  refine ⟨by rw [finalBytes_eq, hz], ?_⟩
  rw [finalBytes_length]
  omega

theorem refBlocks_single (blk : List Nat) (h : blk.length = 64) : refBlocks blk = [blk] := by
  have := refBlocks_cons blk [] h
  rw [List.append_nil, refBlocks_short [] (by simp)] at this
  exact this

/-- C7 as amended: the context has no lifecycle state, and the operations are
defined on every context. For every context `ctx` and byte string `data`, the
context `c` left by `sha256_final ctx` has a counter that is a multiple of 64
and nothing that marks it as finalised. On `c`, a second `sha256_final` runs
as on any context at a block boundary: it compresses the block `0x80`, 55 zero
bytes, big-endian `8 * count` into the state of `c`, writes the 32 bytes of
that new state, and advances the counter by 64 modulo 2^64. On `c`,
`sha256_update` absorbs `data` as from a block boundary: the state becomes the
compression folded over the whole 64-byte blocks of `data` from the state of
`c`, the buffer holds the bytes of `data` after its last whole block, and the
counter advances by the length of `data` modulo 2^64. No error is signalled. -/
theorem C7_amended_no_lifecycle_state (ctx : SHA256_CTX) (data : List Nat) :
    (sha256_final ctx).1.count % 64 = 0 ∧
    (sha256_final (sha256_final ctx).1).1.state =
      transformState (sha256_final ctx).1.state
        (blockChunk ([0x80] ++ List.replicate 55 0 ++ refBE64 (8 * (sha256_final ctx).1.count))) ∧
    (sha256_final (sha256_final ctx).1).2 =
      writeHash (sha256_final (sha256_final ctx).1).1.state ∧
    (sha256_final (sha256_final ctx).1).2.length = 32 ∧
    (sha256_final (sha256_final ctx).1).1.count = ((sha256_final ctx).1.count + 64) % 2 ^ 64 ∧
    (sha256_update (sha256_final ctx).1 data).count =
      ((sha256_final ctx).1.count + data.length) % 2 ^ 64 ∧
    (sha256_update (sha256_final ctx).1 data).state =
      compressBlocks (sha256_final ctx).1.state (refBlocks data) ∧
    ∀ i : Fin 64, i.val < data.length % 64 →
      (sha256_update (sha256_final ctx).1 data).buffer i =
        data.getD (64 * (data.length / 64) + i.val) 0 % 256 := by
  have hmod := sha256_final_count_mod ctx
  have hlt := sha256_final_count_lt ctx
  obtain ⟨hbytes, hlen⟩ := finalBytes_aligned (sha256_final ctx).1.count hmod
  have hfin := final_eq_update (sha256_final ctx).1 (by omega)
  obtain ⟨hst, _, _⟩ := update_aligned _ (finalBytes (sha256_final ctx).1.count)
    (sha256_final ctx).1 rfl hmod
  obtain ⟨ust, _, ubuf⟩ := update_aligned _ data (sha256_final ctx).1 rfl hmod
  refine ⟨hmod, ?_, rfl, writeHash_length _, ?_, sha256_update_count _ data hlt, ust, ubuf⟩
  · rw [hfin, hst, refBlocks_single _ hlen, hbytes]
    rfl
  · rw [hfin, sha256_update_count _ _ hlt, hlen]

set_option maxRecDepth 100000 in
/-- C7 as amended, at a concrete input: on the context left by `sha256_init`
then `sha256_final`, an update with the 66 bytes `1, 2, ..., 66` compresses
one block and leaves byte 66 at buffer position 1. -/
theorem C7_amended_no_lifecycle_state_witness :
    (sha256_update (sha256_final (sha256_init zeroCtx)).1 (List.range' 1 66)).state =
      transformState (sha256_final (sha256_init zeroCtx)).1.state
        (blockChunk (List.range' 1 64)) ∧
    (sha256_update (sha256_final (sha256_init zeroCtx)).1 (List.range' 1 66)).buffer 1 = 66 :=
  ⟨(C7_amended_no_lifecycle_state (sha256_init zeroCtx) (List.range' 1 66)).2.2.2.2.2.2.1.trans
      (congrArg (compressBlocks (sha256_final (sha256_init zeroCtx)).1.state)
        (show refBlocks (List.range' 1 66) = [List.range' 1 64] by decide)),
   ((C7_amended_no_lifecycle_state (sha256_init zeroCtx) (List.range' 1 66)).2.2.2.2.2.2.2 1
      (by decide)).trans (by decide)⟩

end Sha256
